import Mathlib

/-!
# waybackdocs: task filter, filename resolution, worker loop and dispatch

A shallow embedding of `src/main.go` (package `main` of pocahon/waybackdocs).

Go strings are modelled as lists of Unicode code points (`List Char`), i.e. as
valid UTF-8 text.  The standard-library functions the program calls
(`strings.Fields`, `strings.ToLower`, `strings.HasSuffix`, `path.Base`,
`filepath.Join`) are transcribed from the Go standard library (Unix flavour
for `filepath`).  The Unicode case table behind `strings.ToLower` and the
header parser `mime.ParseMediaType` are taken as parameters.  The index
response is read through a `bufio.Scanner` with `ScanLines` and the default
buffer: a line of 64 KiB or more, or a read error, leaves `scanner.Err()` not nil
and `main` ends in `log.Fatalf`.
-/

namespace Waybackdocs

/-- A Go string, as the list of its code points. -/
abbrev GoString := List Char

/-! ## Standard-library string functions -/

/-- Go `unicode.IsSpace`: the Latin-1 spaces `\t \n \v \f \r`, space, U+0085, U+00A0,
and the code points with the White_Space property above Latin-1. -/
def isSpace (c : Char) : Bool :=
  let n := c.toNat
  (9 ≤ n && n ≤ 13) || n == 32 || n == 0x85 || n == 0xA0 ||
  n == 0x1680 || (0x2000 ≤ n && n ≤ 0x200A) || n == 0x2028 || n == 0x2029 ||
  n == 0x202F || n == 0x205F || n == 0x3000

/-- The scanning loop of Go `strings.FieldsFunc`: the first argument is the field
being read (`none` when the scan is between fields, Go's `start < 0`); a field
ends at the next code point satisfying `f`, the last one at the end of the string. -/
def fieldsLoop (f : Char → Bool) : Option GoString → GoString → List GoString
  | none, [] => []
  | some w, [] => [w]
  | none, c :: cs => if f c then fieldsLoop f none cs else fieldsLoop f (some [c]) cs
  | some w, c :: cs =>
    if f c then w :: fieldsLoop f none cs else fieldsLoop f (some (w ++ [c])) cs

/-- Go `strings.Fields`: split around runs of white space. -/
def Fields (s : GoString) : List GoString := fieldsLoop isSpace none s

/-- Go `strings.ToLower`: every code point is mapped through `unicode.ToLower`,
here the parameter `lowerRune`. -/
def ToLower (lowerRune : Char → Char) (s : GoString) : GoString := s.map lowerRune

/-- The ASCII part of `unicode.ToLower`: `A`..`Z` go to `a`..`z`, any other
code point is unchanged. -/
def asciiLower (c : Char) : Char :=
  if 65 ≤ c.toNat ∧ c.toNat ≤ 90 then Char.ofNat (c.toNat + 32) else c

/-- What is used of `unicode.ToLower`: below U+0080 it is the ASCII lowering. -/
def AgreesOnASCII (lowerRune : Char → Char) : Prop :=
  ∀ c : Char, c.toNat < 128 → lowerRune c = asciiLower c

/-- Go `strings.HasSuffix`:
`len(s) >= len(suffix) && s[len(s)-len(suffix):] == suffix`. -/
def HasSuffix (s suffix : GoString) : Bool :=
  decide (suffix.length ≤ s.length) && (s.drop (s.length - suffix.length) == suffix)

/-! ## The task filter of `main` -/

/-- The Go struct `downloadTask`. -/
structure downloadTask where
  timestamp : GoString
  originalURL : GoString
deriving DecidableEq, Repr

/-- The suffixes `.doc`, `.docx`, `.pdf` the loop accepts, and `.txt`, `.eml`. -/
def extDoc : GoString := ['.', 'd', 'o', 'c']
def extDocx : GoString := ['.', 'd', 'o', 'c', 'x']
def extPdf : GoString := ['.', 'p', 'd', 'f']
def extTxt : GoString := ['.', 't', 'x', 't']
def extEml : GoString := ['.', 'e', 'm', 'l']

/-- The variables the scanning loop of `main` updates.  `downloadCount` is a Go
`int`; it counts the tasks appended so far and stays far below `2^63`, so it is
an integer without wrap-around here, as is the flag value `maxDownloads`. -/
structure ScanState where
  tasksSlice : List downloadTask
  downloadCount : Int
deriving DecidableEq, Repr

/-- Go `bufio.MaxScanTokenSize`, `64 * 1024`: the size the buffer of a
`bufio.Scanner` grows to when `Scanner.Buffer` is not called, as in `main`. -/
def maxScanTokenSize : Nat := 65536

/-- The number of bytes of a string, `len(s)` in Go: the sum of the UTF-8 sizes of
its code points. -/
def byteLen (s : GoString) : Nat := (s.map Char.utf8Size).sum

/-- The function `dropCR` of `bufio.ScanLines`: a final carriage return is cut. -/
def dropCR (data : GoString) : GoString :=
  if data.getLast? = some '\r' then data.dropLast else data

/-- The body of the index response as `bufio.Scanner` meets it.

`lines` are the pieces of the body between line feeds, a final carriage return
included, each followed by a line feed (a last line without line feed is scanned
like one with it when it has fewer than `maxScanTokenSize` bytes).  A line of
`maxScanTokenSize` bytes or more does not fit into the buffer with its line feed:
the call of `Scan` that comes to it returns false with `ErrTooLong`.

`readErrorAt` is `none` when the body is read to `io.EOF`.  It is `some k` when
the body breaks off after `lines` with a read error, which the scanner records
during its call number `k` of `Scan`, counted from 0; the data read before is
still scanned, and the call after the last line returns false. -/
structure IndexStream where
  lines : List GoString
  readErrorAt : Option Nat
deriving DecidableEq, Repr

/-- Whether `scanner.Err()` is not nil after the call number `i` of `Scan`. -/
def errRecorded (readErrorAt : Option Nat) (i : Nat) : Bool :=
  match readErrorAt with
  | some k => decide (k ≤ i)
  | none => false

/-- How the scanning loop is left: the variables of `main`, and whether
`scanner.Err()` is not nil at line 144. -/
structure LoopExit where
  state : ScanState
  scanErr : Bool
deriving DecidableEq, Repr

/-- The loop `for scanner.Scan() { ... }` of `main`, lines 123-143, at the call
number `i` of `Scan` with the lines that are left, with `continue` and `break`
as in the source.  `Scan` returns false at the end of the body and at a line that
is too long; else the text of the line is what `ScanLines` yields. -/
def scanLoop (lowerRune : Char → Char) (maxDownloads : Int) (readErrorAt : Option Nat) :
    Nat → List GoString → ScanState → LoopExit
  | _, [], st => { state := st, scanErr := readErrorAt.isSome }
  | i, raw :: rest, st =>
    if maxScanTokenSize ≤ byteLen raw then
      { state := st, scanErr := true }
    else
      let line := dropCR raw
      let fields := Fields line
      if fields.length < 3 then
        scanLoop lowerRune maxDownloads readErrorAt (i + 1) rest st
      else
        let timestamp := fields.getD 1 []
        let originalURL := fields.getD 2 []
        let lowerURL := ToLower lowerRune originalURL
        if !(HasSuffix lowerURL extDoc || HasSuffix lowerURL extDocx ||
              HasSuffix lowerURL extPdf) then
          scanLoop lowerRune maxDownloads readErrorAt (i + 1) rest st
        else
          let st1 : ScanState :=
            { tasksSlice :=
                st.tasksSlice ++ [{ timestamp := timestamp, originalURL := originalURL }],
              downloadCount := st.downloadCount + 1 }
          if maxDownloads > 0 ∧ st1.downloadCount ≥ maxDownloads then
            { state := st1, scanErr := errRecorded readErrorAt i }
          else
            scanLoop lowerRune maxDownloads readErrorAt (i + 1) rest st1

/-- The scanning loop from its start in `main`: `tasksSlice = nil`,
`downloadCount = 0`, first call of `Scan`. -/
def scanIndex (lowerRune : Char → Char) (maxDownloads : Int) (s : IndexStream) :
    LoopExit :=
  scanLoop lowerRune maxDownloads s.readErrorAt 0 s.lines
    { tasksSlice := [], downloadCount := 0 }

/-- Lines 120-147 of `main`: the task list `tasksSlice` that is handed to the
dispatch loop, or `none` when `scanner.Err()` is not nil and `log.Fatalf` ends the
program before any task is dispatched. -/
def taskFilter (lowerRune : Char → Char) (maxDownloads : Int) (s : IndexStream) :
    Option (List downloadTask) :=
  if (scanIndex lowerRune maxDownloads s).scanErr then none
  else some (scanIndex lowerRune maxDownloads s).state.tasksSlice

/-! ### The filter as the specification words it -/

/-- A string whose lower-cased form ends in `.doc`, `.docx` or `.pdf`. -/
def allowedURL (lowerRune : Char → Char) (url : GoString) : Prop :=
  extDoc <:+ ToLower lowerRune url ∨ extDocx <:+ ToLower lowerRune url ∨
    extPdf <:+ ToLower lowerRune url

instance (lowerRune : Char → Char) (url : GoString) : Decidable (allowedURL lowerRune url) := by
  unfold allowedURL; infer_instance

/-- A matching record: a line with at least 3 white-space-delimited fields whose
third field is an allowed URL. -/
def matchingLine (lowerRune : Char → Char) (line : GoString) : Prop :=
  3 ≤ (Fields line).length ∧ allowedURL lowerRune ((Fields line).getD 2 [])

instance (lowerRune : Char → Char) (line : GoString) :
    Decidable (matchingLine lowerRune line) := by
  unfold matchingLine; infer_instance

/-- The task of a record: timestamp from field 1, original URL from field 2. -/
def recordTask (line : GoString) : downloadTask :=
  { timestamp := (Fields line).getD 1 [], originalURL := (Fields line).getD 2 [] }

/-- The tasks of the matching records of a stream, in stream order. -/
def matchingTasks (lowerRune : Char → Char) (lines : List GoString) : List downloadTask :=
  (lines.filter (fun l => decide (matchingLine lowerRune l))).map recordTask

/-! ## Paths: `path.Base`, `filepath.Clean`, `filepath.Join` (Unix) -/

/-- Go `strings.LastIndexByte`: the greatest index holding `c`, `none` for Go's `-1`. -/
def lastIndexByte (c : Char) : GoString → Option Nat
  | [] => none
  | x :: xs =>
    match lastIndexByte c xs with
    | some i => some (i + 1)
    | none => if x = c then some 0 else none

/-- The loop `for len(path) > 0 && path[len(path)-1] == '/'` of `path.Base`, which
cuts the last byte while it is a slash; it runs at most `len(path)` times. -/
def stripTrailingSlashes : Nat → GoString → GoString
  | 0, p => p
  | n + 1, p => if p.getLast? = some '/' then stripTrailingSlashes n p.dropLast else p

/-- Go `path.Base`: the last element of a path. -/
def pathBase (p : GoString) : GoString :=
  if p = [] then ['.']
  else
    let p1 := stripTrailingSlashes p.length p
    let p2 := match lastIndexByte '/' p1 with
      | some i => p1.drop (i + 1)
      | none => p1
    if p2 = [] then ['/'] else p2

/-- The `..` case of `Clean` when it can backtrack: `out.w--` and then
`for out.w > dotdot && out.index(out.w) != '/' { out.w-- }`.  The argument holds
the bytes of the buffer up to and including index `out.w`. -/
def backtrack (dotdot : Nat) : Nat → GoString → GoString
  | 0, o => o.dropLast
  | n + 1, o =>
    if o.length - 1 > dotdot ∧ o.getLast? ≠ some '/' then backtrack dotdot n o.dropLast
    else o.dropLast

/-- The main loop of Go `filepath.Clean` (the same as `path.Clean` on Unix): `rest`
is `path[r:]`, `out` the bytes written so far (`out.w` is its length).  Every
iteration reads at least one byte, so `len(path)` iterations are enough. -/
def cleanLoop (rooted : Bool) : Nat → GoString → GoString → Nat → GoString
  | 0, _, out, _ => out
  | _ + 1, [], out, _ => out
  | fuel + 1, c :: rest, out, dotdot =>
    if c = '/' then
      cleanLoop rooted fuel rest out dotdot
    else if c = '.' ∧ (rest = [] ∨ rest.head? = some '/') then
      cleanLoop rooted fuel rest out dotdot
    else if c = '.' ∧ rest.head? = some '.' ∧
        (rest.tail = [] ∨ rest.tail.head? = some '/') then
      if out.length > dotdot then
        cleanLoop rooted fuel rest.tail (backtrack dotdot out.length out) dotdot
      else if !rooted then
        let out1 := (if out.length > 0 then out ++ ['/'] else out) ++ ['.', '.']
        cleanLoop rooted fuel rest.tail out1 out1.length
      else
        cleanLoop rooted fuel rest.tail out dotdot
    else
      let out1 :=
        if (rooted && out.length != 1) || (!rooted && out.length != 0) then out ++ ['/']
        else out
      cleanLoop rooted fuel (rest.dropWhile (fun x => x != '/'))
        (out1 ++ c :: rest.takeWhile (fun x => x != '/')) dotdot

/-- Go `filepath.Clean` on Unix. -/
def Clean (p : GoString) : GoString :=
  if p = [] then ['.']
  else
    let rooted := p.head? = some '/'
    let out :=
      if rooted then cleanLoop true p.length p.tail ['/'] 1
      else cleanLoop false p.length p [] 0
    if out = [] then ['.'] else out

/-- Go `filepath.Join` on Unix for two elements: the first non-empty element and
what follows it are joined with `/` and cleaned. -/
def Join (dir name : GoString) : GoString :=
  if dir ≠ [] then Clean (dir ++ '/' :: name)
  else if name ≠ [] then Clean name
  else []

/-- A path strictly inside the directory `dir`: `dir`, a slash, and something more.
(On a cleaned path no `..` element follows a named one.) -/
def strictlyInside (dir p : GoString) : Prop :=
  (dir ++ ['/']) <+: p ∧ (dir ++ ['/']).length < p.length

instance (dir p : GoString) : Decidable (strictlyInside dir p) := by
  unfold strictlyInside; infer_instance

/-! ## The worker -/

/-- The result of `mime.ParseMediaType`: `none` when it returns an error, else the
media type and the parameter map. -/
abbrev MediaType := Option (GoString × (GoString → Option GoString))

/-- The map key `"filename"`. -/
def filenameKey : GoString := ['f', 'i', 'l', 'e', 'n', 'a', 'm', 'e']

/-- Lines 57-66 of `worker`: the destination file name, from the task and the value
of `resp.Header.Get("Content-Disposition")` (empty when the header is absent). -/
def resolveFileName (parseMediaType : GoString → MediaType) (task : downloadTask)
    (cd : GoString) : GoString :=
  let fileName := pathBase task.originalURL
  if cd ≠ [] then
    match parseMediaType cd with
    | some (_, params) =>
      match params filenameKey with
      | some fname => fname
      | none => fileName
    | none => fileName
  else fileName

/-- What the outside world answers to one task of a worker. -/
inductive Reply where
  /-- `http.NewRequest` returns an error. -/
  | requestError
  /-- `client.Do` returns an error. -/
  | transportError
  /-- A response arrives, with its status code and `Content-Disposition` value;
  `createFails` and `copyFails` say whether `os.Create` and `io.Copy` return an error. -/
  | response (statusCode : Nat) (contentDisposition : GoString)
      (createFails copyFails : Bool)
deriving DecidableEq, Repr

/-- What a worker does that can be observed. -/
inductive Event where
  /-- The line `[Worker id] Downloading: url`. -/
  | downloading (id : Nat) (url : GoString)
  /-- The log line `Error creating request`. -/
  | logRequestError (id : Nat) (url : GoString)
  /-- The log line `Error downloading`. -/
  | logTransportError (id : Nat) (url : GoString)
  /-- The log line `Download failed ... status`. -/
  | logStatus (id : Nat) (url : GoString) (statusCode : Nat)
  /-- The log line `Could not create file`. -/
  | logCreateError (id : Nat) (path : GoString)
  /-- The file at `path` is created by `os.Create` and the body is copied into it. -/
  | fileWritten (id : Nat) (path : GoString)
  /-- The log line `Error writing to file`. -/
  | logCopyError (id : Nat) (path : GoString)
  /-- The line `[Worker id] Completed: path`. -/
  | completed (id : Nat) (path : GoString)
deriving DecidableEq, Repr

/-- The prefix `https://web.archive.org/web/` of a snapshot address. -/
def archivePrefix : GoString := "https://web.archive.org/web/".toList

/-- `fmt.Sprintf("https://web.archive.org/web/%s/%s", task.timestamp, task.originalURL)`. -/
def downloadURL (task : downloadTask) : GoString :=
  archivePrefix ++ task.timestamp ++ '/' :: task.originalURL

/-- The body of the loop of `worker` for one task: the events of one iteration,
each `continue` ending it. -/
def processTask (parseMediaType : GoString → MediaType) (id : Nat) (outputDir : GoString)
    (task : downloadTask) : Reply → List Event
  | .requestError =>
    [.downloading id (downloadURL task), .logRequestError id (downloadURL task)]
  | .transportError =>
    [.downloading id (downloadURL task), .logTransportError id (downloadURL task)]
  | .response statusCode cd createFails copyFails =>
    if statusCode ≠ 200 then
      [.downloading id (downloadURL task), .logStatus id (downloadURL task) statusCode]
    else
      let fileName := resolveFileName parseMediaType task cd
      let outFilePath := Join outputDir fileName
      if createFails then
        [.downloading id (downloadURL task), .logCreateError id outFilePath]
      else if copyFails then
        [.downloading id (downloadURL task), .fileWritten id outFilePath,
          .logCopyError id outFilePath, .completed id outFilePath]
      else
        [.downloading id (downloadURL task), .fileWritten id outFilePath,
          .completed id outFilePath]

/-- The loop `for task := range tasks` of `worker` over the tasks this worker
receives, each with the answer of the outside world; `log` is what the worker
has done so far. -/
def worker (parseMediaType : GoString → MediaType) (id : Nat) (outputDir : GoString) :
    List (downloadTask × Reply) → List Event → List Event
  | [], log => log
  | (task, reply) :: rest, log =>
    worker parseMediaType id outputDir rest
      (log ++ processTask parseMediaType id outputDir task reply)

/-- The number of files a list of events wrote. -/
def filesWritten (log : List Event) : Nat :=
  (log.filter (fun e => match e with | .fileWritten _ _ => true | _ => false)).length

/-- The output directory `outputDir := "output"` of `main`. -/
def outputDir : GoString := ['o', 'u', 't', 'p', 'u', 't']

/-- The number `main` prints in `Done! Total downloaded files: %d`: the variable
`downloadCount` as the scanning loop left it; `none` when `log.Fatalf` at line
145 ends the program and nothing is printed. -/
def summaryCount (lowerRune : Char → Char) (maxDownloads : Int) (s : IndexStream) :
    Option Int :=
  if (scanIndex lowerRune maxDownloads s).scanErr then none
  else some (scanIndex lowerRune maxDownloads s).state.downloadCount

/-- The lines the scanner yields: those before the first line that is too long. -/
def scannedLines (lines : List GoString) : List GoString :=
  lines.takeWhile (fun l => decide (byteLen l < maxScanTokenSize))

/-- A white-space-only line of 70000 bytes, more than the scanner takes. -/
def longBlankLine : GoString := List.replicate 70000 ' '

/-- The tasks the scanning loop adds to its state when it is entered in state `st`
with `lines` still to read, in the words of the specification: all matching
records, or the first `maxDownloads - downloadCount` of them under a cap. -/
def addedTasks (lowerRune : Char → Char) (maxDownloads : Int) (lines : List GoString)
    (st : ScanState) : List downloadTask :=
  if maxDownloads > 0 then
    (matchingTasks lowerRune lines).take (maxDownloads - st.downloadCount).toNat
  else matchingTasks lowerRune lines

/-! ## Dispatch: `main`, the unbuffered channel and the pool of workers

The goroutines are modelled as an interleaving of atomic actions chosen by a
scheduler.  A send on the unbuffered channel `tasksChan` and the matching
receive are one action. -/

/-- Where a worker goroutine stands. -/
inductive WorkerPhase where
  /-- At `for task := range tasks`, waiting for a task or for the close. -/
  | receiving
  /-- In the loop body, with the task it received. -/
  | busy (task : downloadTask)
  /-- Past the loop: `wg.Done()` has run. -/
  | returned
deriving DecidableEq, Repr

/-- Where `main` stands from line 159 on. -/
inductive MainPhase where
  /-- In `for _, task := range tasksSlice`, with `rest` still to send. -/
  | sending (rest : List downloadTask)
  /-- After `close(tasksChan)`, in `wg.Wait()`. -/
  | waiting
  /-- After `wg.Wait()`. -/
  | done
deriving DecidableEq, Repr

/-- The state of the pool; `received` records every receive, in the order they
happen, with the number of the receiving worker (counted from 0). -/
structure Pool where
  main : MainPhase
  workers : List WorkerPhase
  received : List (Nat × downloadTask)
deriving DecidableEq, Repr

/-- The atomic actions. -/
inductive Action where
  /-- `tasksChan <- task` in `main` meets the receive of worker `w`. -/
  | handoff (w : Nat)
  /-- Worker `w` ends its loop body and is back at the receive. -/
  | finish (w : Nat)
  /-- The statement `close(tasksChan)` of `main`. -/
  | close
  /-- Worker `w` finds the channel closed, leaves the loop and runs `wg.Done()`. -/
  | exit (w : Nat)
  /-- The call `wg.Wait()` returns. -/
  | join
deriving DecidableEq, Repr

/-- `numWorkers := 5`. -/
def numWorkers : Nat := 5

/-- The pool when `main` reaches the dispatch loop: all workers are started. -/
def initPool (tasksSlice : List downloadTask) : Pool :=
  { main := .sending tasksSlice,
    workers := List.replicate numWorkers .receiving,
    received := [] }

/-- One action; `none` when it is not enabled in the state. -/
def step : Action → Pool → Option Pool
  | .handoff w, s =>
    match s.main, s.workers[w]? with
    | .sending (t :: rest), some .receiving =>
      some { main := .sending rest, workers := s.workers.set w (.busy t),
             received := s.received ++ [(w, t)] }
    | _, _ => none
  | .finish w, s =>
    match s.workers[w]? with
    | some (.busy _) => some { s with workers := s.workers.set w .receiving }
    | _ => none
  | .close, s =>
    match s.main with
    | .sending [] => some { s with main := .waiting }
    | _ => none
  | .exit w, s =>
    match s.main, s.workers[w]? with
    | .waiting, some .receiving => some { s with workers := s.workers.set w .returned }
    | _, _ => none
  | .join, s =>
    match s.main with
    | .waiting =>
      if s.workers.all (fun p => p == .returned) then some { s with main := .done } else none
    | _ => none

/-- A run: the actions of a schedule one after the other. -/
def run : List Action → Pool → Option Pool
  | [], s => some s
  | a :: rest, s =>
    match step a s with
    | some s1 => run rest s1
    | none => none

/-- The tasks `main` has still to send. -/
def pending (s : Pool) : List downloadTask :=
  match s.main with
  | .sending rest => rest
  | _ => []

/-- The number of actions a worker in this phase still takes when no task is
given to it. -/
def phaseWeight : WorkerPhase → Nat
  | .receiving => 1
  | .busy _ => 2
  | .returned => 0

/-- A bound on the number of actions left. -/
def stepsLeft (s : Pool) : Nat :=
  (match s.main with
    | .sending rest => 2 * rest.length + 2
    | .waiting => 1
    | .done => 0) + (s.workers.map phaseWeight).sum


/-- What is claimed of the default file name `path.Base(url)` of a task: it is not
empty, has no slash, is what follows the last slash of `url` (all of `url` when
there is none), keeps the extension of `url`, and is none of `.`, `/`, `..`. -/
def DefaultNameOK (lowerRune : Char → Char) (url : GoString) : Prop :=
  pathBase url ≠ [] ∧ '/' ∉ pathBase url ∧
  (∀ pre suf : GoString, url = pre ++ '/' :: suf → '/' ∉ suf → pathBase url = suf) ∧
  ('/' ∉ url → pathBase url = url) ∧
  (∀ ext ∈ [extDoc, extDocx, extPdf], HasSuffix (ToLower lowerRune url) ext = true →
    HasSuffix (ToLower lowerRune (pathBase url)) ext = true) ∧
  pathBase url ≠ ['.'] ∧ pathBase url ≠ ['/'] ∧ pathBase url ≠ ['.', '.']

/-- The addresses a worker announces with `Downloading:`, in order. -/
def attempts (log : List Event) : List GoString :=
  log.filterMap (fun e => match e with | .downloading _ url => some url | _ => none)

/-- A stand-in for `mime.ParseMediaType` in examples: it answers every header as
the real function answers `attachment; filename="name"`, with the media type
`attachment` and the one parameter `filename`, of value `name`. -/
def attachmentParser (name : GoString) : GoString → MediaType :=
  fun _ => some ("attachment".toList,
    fun key => if key = filenameKey then some name else none)

/-- The header value `attachment; filename="name"`. -/
def attachmentHeader (name : GoString) : GoString :=
  "attachment; filename=".toList ++ Char.ofNat 34 :: name ++ [Char.ofNat 34]

/-- What holds of the pool in every state of every run from `initPool tasksSlice`:
the tasks received so far, in the order of the receives, followed by the tasks
still to send, are the task list; there are `numWorkers` workers and only they
receive; no worker has left its loop while `main` is still sending. -/
def PoolInv (tasksSlice : List downloadTask) (s : Pool) : Prop :=
  s.received.map Prod.snd ++ pending s = tasksSlice ∧
  s.workers.length = numWorkers ∧
  (∀ e ∈ s.received, e.1 < numWorkers) ∧
  (∀ rest, s.main = .sending rest → ∀ p ∈ s.workers, p ≠ .returned)

/-! ## The task filter: lemmas -/

theorem HasSuffix_iff (s suffix : GoString) : HasSuffix s suffix = true ↔ suffix <:+ s := by
  unfold HasSuffix
  constructor
  · intro h
    simp only [Bool.and_eq_true, decide_eq_true_eq, beq_iff_eq] at h
    have h2 := h.2
    have hd := List.drop_suffix (s.length - suffix.length) s
    rwa [h2] at hd
  · rintro ⟨t, rfl⟩
    simp

theorem allowed_iff (lowerRune : Char → Char) (url : GoString) :
    (!(HasSuffix (ToLower lowerRune url) extDoc || HasSuffix (ToLower lowerRune url) extDocx ||
        HasSuffix (ToLower lowerRune url) extPdf)) = false ↔ allowedURL lowerRune url := by
  unfold allowedURL
  simp only [Bool.not_eq_false', Bool.or_eq_true, HasSuffix_iff, or_assoc]

/-- A white-space code point at the end of a string adds no field. -/
theorem fieldsLoop_append_space (f : Char → Bool) (c : Char) (hc : f c = true) :
    ∀ (s : GoString) (cur : Option GoString),
      fieldsLoop f cur (s ++ [c]) = fieldsLoop f cur s := by
  intro s
  induction s with
  | nil =>
    intro cur
    cases cur <;> simp [fieldsLoop, hc]
  | cons x xs ih =>
    intro cur
    cases cur with
    | none =>
      simp only [List.cons_append, fieldsLoop]
      split_ifs
      · exact ih none
      · exact ih _
    | some w =>
      simp only [List.cons_append, fieldsLoop]
      split_ifs
      · exact congrArg _ (ih none)
      · exact ih _

/-- The carriage return that `ScanLines` cuts is white space: the fields of the
text of a line are the fields of the line. -/
theorem Fields_dropCR (raw : GoString) : Fields (dropCR raw) = Fields raw := by
  unfold dropCR
  split
  · rename_i h
    have hraw : raw.dropLast ++ ['\r'] = raw := List.dropLast_append_getLast? _ h
    unfold Fields
    conv_rhs => rw [← hraw]
    rw [fieldsLoop_append_space isSpace '\r' (by decide)]
  · rfl

theorem byteLen_replicate (c : Char) (n : Nat) :
    byteLen (List.replicate n c) = n * c.utf8Size := by
  induction n with
  | zero => simp [byteLen]
  | succ n ih =>
    unfold byteLen at ih ⊢
    rw [List.replicate_succ, List.map_cons, List.sum_cons, ih]
    ring

theorem longBlankLine_long : maxScanTokenSize ≤ byteLen longBlankLine := by
  rw [longBlankLine, byteLen_replicate]
  decide

theorem fieldsLoop_all_space (f : Char → Bool) :
    ∀ s : GoString, (∀ c ∈ s, f c = true) → fieldsLoop f none s = [] := by
  intro s
  induction s with
  | nil => intro _; rfl
  | cons c cs ih =>
    intro h
    have hc : f c = true := h c (List.mem_cons_self _ _)
    rw [fieldsLoop, if_pos hc]
    exact ih (fun x hx => h x (List.mem_cons_of_mem _ hx))

theorem Fields_longBlankLine : Fields longBlankLine = [] := by
  unfold Fields
  apply fieldsLoop_all_space
  intro c hc
  rw [longBlankLine] at hc
  rw [List.eq_of_mem_replicate hc]
  decide

theorem not_matching_longBlankLine (lowerRune : Char → Char) :
    ¬ matchingLine lowerRune longBlankLine := by
  intro h
  have h3 := h.1
  rw [Fields_longBlankLine] at h3
  simp at h3

/-! ### One iteration of the loop, by the kind of line -/

theorem scanLoop_long (lowerRune : Char → Char) (maxDownloads : Int) (e : Option Nat)
    (i : Nat) (raw : GoString) (rest : List GoString) (st : ScanState)
    (h : maxScanTokenSize ≤ byteLen raw) :
    scanLoop lowerRune maxDownloads e i (raw :: rest) st
      = { state := st, scanErr := true } := by
  rw [scanLoop, if_pos h]

theorem scanLoop_skip (lowerRune : Char → Char) (maxDownloads : Int) (e : Option Nat)
    (i : Nat) (raw : GoString) (rest : List GoString) (st : ScanState)
    (hs : byteLen raw < maxScanTokenSize) (h : ¬ matchingLine lowerRune raw) :
    scanLoop lowerRune maxDownloads e i (raw :: rest) st
      = scanLoop lowerRune maxDownloads e (i + 1) rest st := by
  rw [scanLoop, if_neg (by omega)]
  simp only [Fields_dropCR]
  by_cases h3 : (Fields raw).length < 3
  · simp [h3]
  · have hna : ¬ allowedURL lowerRune ((Fields raw).getD 2 []) := fun ha =>
      h ⟨by omega, ha⟩
    rw [← allowed_iff] at hna
    simp only [Bool.not_eq_false] at hna
    simp only [h3, if_false, hna, if_true]

theorem scanLoop_take (lowerRune : Char → Char) (maxDownloads : Int) (e : Option Nat)
    (i : Nat) (raw : GoString) (rest : List GoString) (st : ScanState)
    (hs : byteLen raw < maxScanTokenSize) (h : matchingLine lowerRune raw) :
    scanLoop lowerRune maxDownloads e i (raw :: rest) st
      = if maxDownloads > 0 ∧ st.downloadCount + 1 ≥ maxDownloads then
          { state := { tasksSlice := st.tasksSlice ++ [recordTask raw],
                       downloadCount := st.downloadCount + 1 },
            scanErr := errRecorded e i }
        else scanLoop lowerRune maxDownloads e (i + 1) rest
          { tasksSlice := st.tasksSlice ++ [recordTask raw],
            downloadCount := st.downloadCount + 1 } := by
  rw [scanLoop, if_neg (by omega)]
  simp only [Fields_dropCR]
  have h3 : ¬ (Fields raw).length < 3 := by have := h.1; omega
  have ha := (allowed_iff lowerRune _).2 h.2
  simp only [h3, if_false, ha, recordTask]
  rfl

theorem scannedLines_cons_long (raw : GoString) (rest : List GoString)
    (h : maxScanTokenSize ≤ byteLen raw) : scannedLines (raw :: rest) = [] := by
  simp [scannedLines, List.takeWhile_cons, Nat.not_lt.2 h]

theorem scannedLines_cons_short (raw : GoString) (rest : List GoString)
    (h : byteLen raw < maxScanTokenSize) :
    scannedLines (raw :: rest) = raw :: scannedLines rest := by
  simp [scannedLines, List.takeWhile_cons, h]

theorem scannedLines_of_short (lines : List GoString)
    (h : ∀ l ∈ lines, byteLen l < maxScanTokenSize) : scannedLines lines = lines := by
  induction lines with
  | nil => rfl
  | cons raw rest ih =>
    rw [scannedLines_cons_short _ _ (h raw (List.mem_cons_self _ _)),
      ih (fun l hl => h l (List.mem_cons_of_mem _ hl))]

theorem short_of_scannedLines (lines : List GoString) (h : scannedLines lines = lines) :
    ∀ l ∈ lines, byteLen l < maxScanTokenSize := by
  intro l hl
  rw [← h] at hl
  have := List.mem_takeWhile_imp hl
  simpa using this

theorem matchingTasks_cons_of_not (lowerRune : Char → Char) (line : GoString)
    (rest : List GoString) (h : ¬ matchingLine lowerRune line) :
    matchingTasks lowerRune (line :: rest) = matchingTasks lowerRune rest := by
  simp [matchingTasks, List.filter_cons, h]

theorem matchingTasks_cons_of_matching (lowerRune : Char → Char) (line : GoString)
    (rest : List GoString) (h : matchingLine lowerRune line) :
    matchingTasks lowerRune (line :: rest)
      = recordTask line :: matchingTasks lowerRune rest := by
  simp [matchingTasks, List.filter_cons, h]

theorem matchingTasks_append (lowerRune : Char → Char) (a b : List GoString) :
    matchingTasks lowerRune (a ++ b)
      = matchingTasks lowerRune a ++ matchingTasks lowerRune b := by
  simp [matchingTasks]

theorem addedTasks_cons_of_not (lowerRune : Char → Char) (maxDownloads : Int)
    (line : GoString) (rest : List GoString) (st : ScanState)
    (h : ¬ matchingLine lowerRune line) :
    addedTasks lowerRune maxDownloads (line :: rest) st
      = addedTasks lowerRune maxDownloads rest st := by
  simp [addedTasks, matchingTasks_cons_of_not _ _ _ h]

theorem addedTasks_cons_stop (lowerRune : Char → Char) (maxDownloads : Int)
    (line : GoString) (rest : List GoString) (st : ScanState)
    (h : matchingLine lowerRune line) (hpos : maxDownloads > 0)
    (hlt : st.downloadCount < maxDownloads)
    (hstop : st.downloadCount + 1 ≥ maxDownloads) :
    addedTasks lowerRune maxDownloads (line :: rest) st = [recordTask line] := by
  have hone : (maxDownloads - st.downloadCount).toNat = 1 := by omega
  simp [addedTasks, hpos, hone, matchingTasks_cons_of_matching _ _ _ h]

theorem addedTasks_cons_go (lowerRune : Char → Char) (maxDownloads : Int)
    (line : GoString) (rest : List GoString) (st : ScanState)
    (h : matchingLine lowerRune line)
    (hst0 : maxDownloads > 0 → st.downloadCount < maxDownloads)
    (hst : maxDownloads > 0 → st.downloadCount + 1 < maxDownloads) :
    addedTasks lowerRune maxDownloads (line :: rest) st
      = recordTask line :: addedTasks lowerRune maxDownloads rest
          { tasksSlice := st.tasksSlice ++ [recordTask line],
            downloadCount := st.downloadCount + 1 } := by
  by_cases hpos : maxDownloads > 0
  · have hlt := hst hpos
    have hlt0 := hst0 hpos
    have hsucc : (maxDownloads - st.downloadCount).toNat
        = (maxDownloads - (st.downloadCount + 1)).toNat + 1 := by omega
    simp only [addedTasks, hpos, if_true, matchingTasks_cons_of_matching _ _ _ h, hsucc,
      List.take_succ_cons]
  · simp only [addedTasks, hpos, if_false, matchingTasks_cons_of_matching _ _ _ h]

/-- The scanning loop, entered below the cap: the tasks it adds are the first
matching records of the lines the scanner yields; it is left without scanner
error only at the cap or at the end of a body without long line and without read
error, and it is left so on every such body. -/
theorem scanLoop_spec (lowerRune : Char → Char) (maxDownloads : Int) (e : Option Nat) :
    ∀ (lines : List GoString) (i : Nat) (st : ScanState),
      (maxDownloads > 0 → st.downloadCount < maxDownloads) →
      (scanLoop lowerRune maxDownloads e i lines st).state
        = { tasksSlice :=
              st.tasksSlice ++ addedTasks lowerRune maxDownloads (scannedLines lines) st,
            downloadCount := st.downloadCount
              + (addedTasks lowerRune maxDownloads (scannedLines lines) st).length } ∧
      ((scanLoop lowerRune maxDownloads e i lines st).scanErr = false →
        (maxDownloads > 0 ∧ st.downloadCount
            + (addedTasks lowerRune maxDownloads (scannedLines lines) st).length
          = maxDownloads) ∨
        (e = none ∧ scannedLines lines = lines)) ∧
      (e = none → scannedLines lines = lines →
        (scanLoop lowerRune maxDownloads e i lines st).scanErr = false) := by
  intro lines
  induction lines with
  | nil =>
    intro i st _
    refine ⟨by simp [scanLoop, addedTasks, matchingTasks, scannedLines], ?_, ?_⟩
    · intro h
      right
      simp only [scanLoop] at h
      cases e with
      | none => exact ⟨rfl, rfl⟩
      | some k => simp at h
    · intro he _
      simp [scanLoop, he]
  | cons raw rest ih =>
    intro i st hst
    by_cases hl : maxScanTokenSize ≤ byteLen raw
    · rw [scanLoop_long _ _ _ _ _ _ _ hl, scannedLines_cons_long _ _ hl]
      refine ⟨by simp [addedTasks, matchingTasks], ?_, ?_⟩
      · intro h; simp at h
      · intro _ h; simp at h
    · have hs : byteLen raw < maxScanTokenSize := by omega
      rw [scannedLines_cons_short _ _ hs]
      by_cases hm : matchingLine lowerRune raw
      · rw [scanLoop_take _ _ _ _ _ _ _ hs hm]
        by_cases hstop : maxDownloads > 0 ∧ st.downloadCount + 1 ≥ maxDownloads
        · have hlt := hst hstop.1
          rw [if_pos hstop, addedTasks_cons_stop _ _ _ _ _ hm hstop.1 hlt hstop.2]
          refine ⟨by simp, ?_, ?_⟩
          · intro _
            left
            refine ⟨hstop.1, ?_⟩
            simp only [List.length_singleton, Nat.cast_one]
            omega
          · intro he _
            simp [he, errRecorded]
        · have hst1 : maxDownloads > 0 → st.downloadCount + 1 < maxDownloads := by
            intro hpos
            simp only [not_and, not_le, ge_iff_le] at hstop
            exact hstop hpos
          rw [if_neg hstop, addedTasks_cons_go _ _ _ _ _ hm hst hst1]
          obtain ⟨h1, h2, h3⟩ := ih (i + 1)
            { tasksSlice := st.tasksSlice ++ [recordTask raw],
              downloadCount := st.downloadCount + 1 } hst1
          refine ⟨?_, ?_, ?_⟩
          · rw [h1]
            simp only [List.append_assoc, List.singleton_append, List.length_cons,
              ScanState.mk.injEq, true_and]
            push_cast
            ring
          · intro h
            rcases h2 h with ⟨hpos, hcount⟩ | ⟨he, hsc⟩
            · left
              refine ⟨hpos, ?_⟩
              simp only [List.length_cons] at hcount ⊢
              push_cast
              omega
            · right
              exact ⟨he, by rw [hsc]⟩
          · intro he hsc
            exact h3 he (List.cons_injective hsc)
      · rw [scanLoop_skip _ _ _ _ _ _ _ hs hm, addedTasks_cons_of_not _ _ _ _ _ hm]
        obtain ⟨h1, h2, h3⟩ := ih (i + 1) st hst
        refine ⟨h1, ?_, ?_⟩
        · intro h
          rcases h2 h with h | ⟨he, hsc⟩
          · left; exact h
          · right; exact ⟨he, by rw [hsc]⟩
        · intro he hsc
          exact h3 he (List.cons_injective hsc)

theorem scanIndex_tasks (lowerRune : Char → Char) (maxDownloads : Int) (s : IndexStream) :
    (scanIndex lowerRune maxDownloads s).state.tasksSlice
      = if maxDownloads > 0 then
          (matchingTasks lowerRune (scannedLines s.lines)).take maxDownloads.toNat
        else matchingTasks lowerRune (scannedLines s.lines) := by
  unfold scanIndex
  rw [(scanLoop_spec lowerRune maxDownloads s.readErrorAt s.lines 0 _
    (by intro h; exact h)).1]
  simp [addedTasks]

theorem scanIndex_count (lowerRune : Char → Char) (maxDownloads : Int) (s : IndexStream) :
    (scanIndex lowerRune maxDownloads s).state.downloadCount
      = ((scanIndex lowerRune maxDownloads s).state.tasksSlice.length : Int) := by
  unfold scanIndex
  rw [(scanLoop_spec lowerRune maxDownloads s.readErrorAt s.lines 0 _
    (by intro h; exact h)).1]
  simp

theorem mem_matchingTasks (lowerRune : Char → Char) (lines : List GoString)
    (t : downloadTask) (h : t ∈ matchingTasks lowerRune lines) :
    ∃ line ∈ lines, matchingLine lowerRune line ∧ t = recordTask line := by
  simp only [matchingTasks, List.mem_map, List.mem_filter, decide_eq_true_eq] at h
  obtain ⟨line, ⟨hmem, hm⟩, rfl⟩ := h
  exact ⟨line, hmem, hm, rfl⟩

/-- Every task of the loop is the task of a matching line of the body. -/
theorem mem_scanIndex (lowerRune : Char → Char) (maxDownloads : Int)
    (s : IndexStream) (t : downloadTask)
    (h : t ∈ (scanIndex lowerRune maxDownloads s).state.tasksSlice) :
    ∃ line ∈ s.lines, matchingLine lowerRune line ∧ t = recordTask line := by
  rw [scanIndex_tasks] at h
  have hm : t ∈ matchingTasks lowerRune (scannedLines s.lines) := by
    split at h
    · exact List.mem_of_mem_take h
    · exact h
  obtain ⟨line, hl, hml, ht⟩ := mem_matchingTasks _ _ _ hm
  exact ⟨line, (List.takeWhile_sublist _).subset hl, hml, ht⟩

theorem taskFilter_some (lowerRune : Char → Char) (maxDownloads : Int) (s : IndexStream)
    (tasks : List downloadTask) (h : taskFilter lowerRune maxDownloads s = some tasks) :
    (scanIndex lowerRune maxDownloads s).scanErr = false ∧
      tasks = (scanIndex lowerRune maxDownloads s).state.tasksSlice := by
  unfold taskFilter at h
  split at h
  · exact Option.noConfusion h
  · rename_i hne
    simp only [Option.some.injEq] at h
    exact ⟨by simpa using hne, h.symm⟩

theorem taskFilter_of_ok (lowerRune : Char → Char) (maxDownloads : Int) (s : IndexStream)
    (h : (scanIndex lowerRune maxDownloads s).scanErr = false) :
    taskFilter lowerRune maxDownloads s
      = some (scanIndex lowerRune maxDownloads s).state.tasksSlice := by
  unfold taskFilter
  rw [h]
  rfl

theorem taskFilter_of_err (lowerRune : Char → Char) (maxDownloads : Int) (s : IndexStream)
    (h : (scanIndex lowerRune maxDownloads s).scanErr = true) :
    taskFilter lowerRune maxDownloads s = none := by
  unfold taskFilter
  rw [h]
  rfl

/-- A body without long line that is read to its end is scanned without error. -/
theorem scanIndex_ok (lowerRune : Char → Char) (maxDownloads : Int) (lines : List GoString)
    (h : ∀ l ∈ lines, byteLen l < maxScanTokenSize) :
    (scanIndex lowerRune maxDownloads { lines := lines, readErrorAt := none }).scanErr
      = false :=
  (scanLoop_spec lowerRune maxDownloads none lines 0 _ (by intro h; exact h)).2.2 rfl
    (scannedLines_of_short lines h)

theorem not_suffix_of_allowed (lowerRune : Char → Char) (url other : GoString)
    (h : allowedURL lowerRune url) (hlen : other.length ≤ 4)
    (h1 : ¬ other <:+ extDoc) (h2 : ¬ other <:+ extDocx) (h3 : ¬ other <:+ extPdf) :
    HasSuffix (ToLower lowerRune url) other = false := by
  rw [Bool.eq_false_iff]
  intro hs
  rw [HasSuffix_iff] at hs
  rcases h with h | h | h
  · exact h1 (List.suffix_of_suffix_length_le hs h (by simpa [extDoc] using hlen))
  · exact h2 (List.suffix_of_suffix_length_le hs h (by simp [extDocx]; omega))
  · exact h3 (List.suffix_of_suffix_length_le hs h (by simpa [extPdf] using hlen))

/-- A body of one matching line of less than 64 KiB: its task is the task list. -/
theorem taskFilter_single (lowerRune : Char → Char) (maxDownloads : Int) (line : GoString)
    (hs : byteLen line < maxScanTokenSize) (h : matchingLine lowerRune line) :
    taskFilter lowerRune maxDownloads { lines := [line], readErrorAt := none }
      = some [recordTask line] := by
  have hex : scanIndex lowerRune maxDownloads { lines := [line], readErrorAt := none }
      = { state := { tasksSlice := [recordTask line], downloadCount := 1 },
          scanErr := false } := by
    unfold scanIndex
    simp only
    rw [scanLoop_take _ _ _ _ _ _ _ hs h]
    split <;> simp [scanLoop, errRecorded]
  unfold taskFilter
  rw [hex]
  rfl

/-- A body of one line that is not matching: the task list is empty. -/
theorem taskFilter_single_skip (lowerRune : Char → Char) (maxDownloads : Int)
    (line : GoString) (hs : byteLen line < maxScanTokenSize)
    (h : ¬ matchingLine lowerRune line) :
    taskFilter lowerRune maxDownloads { lines := [line], readErrorAt := none }
      = some [] := by
  have hex : scanIndex lowerRune maxDownloads { lines := [line], readErrorAt := none }
      = { state := { tasksSlice := [], downloadCount := 0 }, scanErr := false } := by
    unfold scanIndex
    simp only
    rw [scanLoop_skip _ _ _ _ _ _ _ hs h]
    simp [scanLoop]
  unfold taskFilter
  rw [hex]
  rfl

theorem agreesOnASCII_asciiLower : AgreesOnASCII asciiLower := fun _ _ => rfl

theorem allowed_of_upper_pdf (lowerRune : Char → Char) (hl : AgreesOnASCII lowerRune)
    (url : GoString) (h : HasSuffix url ['.', 'P', 'D', 'F'] = true) :
    allowedURL lowerRune url := by
  rw [HasSuffix_iff] at h
  obtain ⟨pre, rfl⟩ := h
  refine Or.inr (Or.inr ⟨pre.map lowerRune, ?_⟩)
  have e1 : lowerRune '.' = '.' := by rw [hl '.' (by decide)]; rfl
  have e2 : lowerRune 'P' = 'p' := by rw [hl 'P' (by decide)]; rfl
  have e3 : lowerRune 'D' = 'd' := by rw [hl 'D' (by decide)]; rfl
  have e4 : lowerRune 'F' = 'f' := by rw [hl 'F' (by decide)]; rfl
  simp [ToLower, extPdf, e1, e2, e3, e4]

/-! ## The task filter: the claims -/

/-- C1: every task the scanning loop of `main` appends, for any body of the index
response and any maximum count, has an `originalURL` whose lower-cased form ends
in `.doc`, `.docx` or `.pdf`, and so ends neither in `.txt` nor in `.eml`; the
task list handed to the workers is this list; and a record whose URL ends in
`.PDF` is accepted (lower-casing being ASCII lower-casing on ASCII). -/
theorem taskFilter_allowed_extension (lowerRune : Char → Char) (maxDownloads : Int)
    (s : IndexStream) :
    (∀ t ∈ (scanIndex lowerRune maxDownloads s).state.tasksSlice,
      (HasSuffix (ToLower lowerRune t.originalURL) extDoc = true ∨
        HasSuffix (ToLower lowerRune t.originalURL) extDocx = true ∨
        HasSuffix (ToLower lowerRune t.originalURL) extPdf = true) ∧
      HasSuffix (ToLower lowerRune t.originalURL) extTxt = false ∧
      HasSuffix (ToLower lowerRune t.originalURL) extEml = false) ∧
    (∀ tasks : List downloadTask, taskFilter lowerRune maxDownloads s = some tasks →
      tasks = (scanIndex lowerRune maxDownloads s).state.tasksSlice) ∧
    (AgreesOnASCII lowerRune → ∀ line : GoString, byteLen line < maxScanTokenSize →
      3 ≤ (Fields line).length →
      HasSuffix ((Fields line).getD 2 []) ['.', 'P', 'D', 'F'] = true →
      taskFilter lowerRune maxDownloads { lines := [line], readErrorAt := none }
        = some [{ timestamp := (Fields line).getD 1 [],
                  originalURL := (Fields line).getD 2 [] }]) := by
  refine ⟨?_, ?_, ?_⟩
  · intro t ht
    obtain ⟨line, _, hm, rfl⟩ := mem_scanIndex _ _ _ _ ht
    have ha : allowedURL lowerRune (recordTask line).originalURL := hm.2
    refine ⟨?_, ?_, ?_⟩
    · simpa only [HasSuffix_iff] using ha
    · exact not_suffix_of_allowed _ _ _ ha (by simp [extTxt]) (by decide) (by decide) (by decide)
    · exact not_suffix_of_allowed _ _ _ ha (by simp [extEml]) (by decide) (by decide) (by decide)
  · intro tasks h
    exact (taskFilter_some _ _ _ _ h).2
  · intro hl line hs h3 hpdf
    exact taskFilter_single _ _ _ hs ⟨h3, allowed_of_upper_pdf _ hl _ hpdf⟩

/-- Witness of C1 on a body of four lines with the cap 5: the one task is
`b.PDF`, and the record of `b.PDF` alone is accepted. -/
theorem taskFilter_allowed_extension_witness :
    ((HasSuffix (ToLower asciiLower "b.PDF".toList) extDoc = true ∨
        HasSuffix (ToLower asciiLower "b.PDF".toList) extDocx = true ∨
        HasSuffix (ToLower asciiLower "b.PDF".toList) extPdf = true) ∧
      HasSuffix (ToLower asciiLower "b.PDF".toList) extTxt = false ∧
      HasSuffix (ToLower asciiLower "b.PDF".toList) extEml = false) ∧
    taskFilter asciiLower 5 { lines := ["x 2 b.PDF".toList], readErrorAt := none }
      = some [{ timestamp := ['2'], originalURL := "b.PDF".toList }] :=
  ⟨(taskFilter_allowed_extension asciiLower 5
      { lines := ["x 1 a.txt".toList, "x 2 b.PDF".toList, "short".toList,
                  "x 3 c.eml".toList],
        readErrorAt := none }).1
      { timestamp := ['2'], originalURL := "b.PDF".toList } (by decide),
   (taskFilter_allowed_extension asciiLower 5 { lines := [], readErrorAt := none }).2.2
     agreesOnASCII_asciiLower "x 2 b.PDF".toList (by decide) (by decide) (by decide)⟩

/-! ### A body with a line of more than 64 KiB -/

/-- On the body `x 1 a.pdf`, a blank line of 70000 bytes, `x 2 b.pdf`, the loop
appends the task of the first line and is then left with `ErrTooLong`, unless the
cap is 1. -/
theorem scanIndex_longBlankLine (maxDownloads : Int)
    (h : ¬ (maxDownloads > 0 ∧ (0 : Int) + 1 ≥ maxDownloads)) :
    scanIndex asciiLower maxDownloads
        { lines := ["x 1 a.pdf".toList, longBlankLine, "x 2 b.pdf".toList],
          readErrorAt := none }
      = { state := { tasksSlice := [recordTask "x 1 a.pdf".toList], downloadCount := 0 + 1 },
          scanErr := true } := by
  unfold scanIndex
  simp only
  rw [scanLoop_take _ _ _ _ _ _ _ (by decide) (by decide), if_neg h,
    scanLoop_long _ _ _ _ _ _ _ longBlankLine_long]
  rfl

theorem filter_longBlankLine :
    ["x 1 a.pdf".toList, longBlankLine, "x 2 b.pdf".toList].filter
        (fun l => decide (matchingLine asciiLower l))
      = ["x 1 a.pdf".toList, "x 2 b.pdf".toList] := by
  rw [List.filter_cons_of_pos (by decide),
    List.filter_cons_of_neg (by simpa using not_matching_longBlankLine asciiLower),
    List.filter_cons_of_pos (by decide)]
  rfl

/-- C2 as stated fails: with the cap 2, on the body `x 1 a.pdf`, a blank line of
70000 bytes, `x 2 b.pdf`, which has 2 matching records, the loop appends 1 task,
the scanner stops with `ErrTooLong` and `main` ends in `log.Fatalf`; no list of
`min(2, 2) = 2` tasks is produced. -/
theorem taskFilter_capped_fails_on_long_line :
    (["x 1 a.pdf".toList, longBlankLine, "x 2 b.pdf".toList].filter
        (fun l => decide (matchingLine asciiLower l))).length = 2 ∧
    (scanIndex asciiLower 2
        { lines := ["x 1 a.pdf".toList, longBlankLine, "x 2 b.pdf".toList],
          readErrorAt := none }).state.tasksSlice
      = [{ timestamp := ['1'], originalURL := "a.pdf".toList }] ∧
    taskFilter asciiLower 2
        { lines := ["x 1 a.pdf".toList, longBlankLine, "x 2 b.pdf".toList],
          readErrorAt := none } = none ∧
    taskFilter asciiLower 2
        { lines := ["x 1 a.pdf".toList, longBlankLine, "x 2 b.pdf".toList],
          readErrorAt := none }
      ≠ some (((["x 1 a.pdf".toList, longBlankLine, "x 2 b.pdf".toList].filter
          (fun l => decide (matchingLine asciiLower l))).take 2).map recordTask) := by
  have hnone : taskFilter asciiLower 2
      { lines := ["x 1 a.pdf".toList, longBlankLine, "x 2 b.pdf".toList],
        readErrorAt := none } = none :=
    taskFilter_of_err _ _ _ (by rw [scanIndex_longBlankLine 2 (by decide)])
  refine ⟨by rw [filter_longBlankLine]; rfl, ?_, hnone, ?_⟩
  · rw [scanIndex_longBlankLine 2 (by decide)]
    decide
  · rw [hnone]
    exact fun h => Option.noConfusion h

/-- C2, amended: with a maximum count `N > 0`, on a body without line of 64 KiB
or more that is read without error, the task list is the first `N` matching
records in stream order (all of them when there are fewer); and on every body,
whenever `main` gets past the check of `scanner.Err()`, the task list is the
first `N` matching records of the body in stream order, `min N m` tasks for `m`
matching records, never more than `N`. -/
theorem taskFilter_capped (lowerRune : Char → Char) (N : Int) (hN : 0 < N)
    (s : IndexStream) :
    (s.readErrorAt = none → (∀ l ∈ s.lines, byteLen l < maxScanTokenSize) →
      taskFilter lowerRune N s
        = some (((s.lines.filter (fun l => decide (matchingLine lowerRune l))).take
            N.toNat).map recordTask)) ∧
    (∀ tasks : List downloadTask, taskFilter lowerRune N s = some tasks →
      tasks = ((s.lines.filter (fun l => decide (matchingLine lowerRune l))).take
          N.toNat).map recordTask ∧
      (tasks.length : Int)
        = min N ((s.lines.filter (fun l => decide (matchingLine lowerRune l))).length : Int) ∧
      (tasks.length : Int) ≤ N) := by
  have hspec := scanLoop_spec lowerRune N s.readErrorAt s.lines 0
    { tasksSlice := [], downloadCount := 0 } (by intro h; exact h)
  have htasks : (scanIndex lowerRune N s).state.tasksSlice
      = (matchingTasks lowerRune (scannedLines s.lines)).take N.toNat := by
    rw [scanIndex_tasks, if_pos hN]
  have hfinal : (scanIndex lowerRune N s).scanErr = false →
      (scanIndex lowerRune N s).state.tasksSlice
        = ((s.lines.filter (fun l => decide (matchingLine lowerRune l))).take
            N.toNat).map recordTask := by
    intro hok
    rw [htasks, List.map_take]
    show _ = (matchingTasks lowerRune s.lines).take N.toNat
    rcases hspec.2.1 hok with ⟨_, hcount⟩ | ⟨_, hsc⟩
    · have hlen : N.toNat ≤ (matchingTasks lowerRune (scannedLines s.lines)).length := by
        simp only [addedTasks, hN, gt_iff_lt, if_true, List.length_take, zero_add,
          sub_zero] at hcount
        omega
      have hsplit : s.lines = scannedLines s.lines
          ++ s.lines.dropWhile (fun l => decide (byteLen l < maxScanTokenSize)) :=
        (List.takeWhile_append_dropWhile _ _).symm
      conv_rhs => rw [hsplit, matchingTasks_append]
      rw [List.take_append_of_le_length hlen]
    · rw [hsc]
  refine ⟨?_, ?_⟩
  · intro he hshort
    have hok : (scanIndex lowerRune N s).scanErr = false :=
      hspec.2.2 he (scannedLines_of_short _ hshort)
    rw [taskFilter_of_ok _ _ _ hok, hfinal hok]
  · intro tasks h
    obtain ⟨hok, ht⟩ := taskFilter_some _ _ _ _ h
    have heq := ht.trans (hfinal hok)
    have hlen : (tasks.length : Int)
        = min N ((s.lines.filter (fun l => decide (matchingLine lowerRune l))).length : Int) := by
      rw [heq, List.length_map, List.length_take]
      omega
    exact ⟨heq, hlen, by rw [hlen]; exact min_le_left _ _⟩

/-- Witness of C2: seven lines, four of them matching, cap 2. -/
theorem taskFilter_capped_witness :
    taskFilter asciiLower 2
        { lines := ["x 1 a.html".toList, "x 2 b.pdf".toList, "".toList, "x 3 c.txt".toList,
                    "x 4 d.DOCX".toList, "x 5 e.doc".toList, "x 6 f.pdf".toList],
          readErrorAt := none }
      = some [{ timestamp := ['2'], originalURL := "b.pdf".toList },
              { timestamp := ['4'], originalURL := "d.DOCX".toList }] :=
  ((taskFilter_capped asciiLower 2 (by decide)
    { lines := ["x 1 a.html".toList, "x 2 b.pdf".toList, "".toList, "x 3 c.txt".toList,
                "x 4 d.DOCX".toList, "x 5 e.doc".toList, "x 6 f.pdf".toList],
      readErrorAt := none }).1 rfl (by decide)).trans (by decide)

/-- C3 as stated fails: with the maximum count 0, on the body `x 1 a.pdf`, a blank
line of 70000 bytes, `x 2 b.pdf`, the two matching records do not become tasks:
the scanner stops with `ErrTooLong` at the long line and `main` ends in
`log.Fatalf` with no task list. -/
theorem taskFilter_unlimited_fails_on_long_line :
    ["x 1 a.pdf".toList, longBlankLine, "x 2 b.pdf".toList].filter
        (fun l => decide (matchingLine asciiLower l))
      = ["x 1 a.pdf".toList, "x 2 b.pdf".toList] ∧
    taskFilter asciiLower 0
        { lines := ["x 1 a.pdf".toList, longBlankLine, "x 2 b.pdf".toList],
          readErrorAt := none } = none ∧
    taskFilter asciiLower 0
        { lines := ["x 1 a.pdf".toList, longBlankLine, "x 2 b.pdf".toList],
          readErrorAt := none }
      ≠ some ((["x 1 a.pdf".toList, longBlankLine, "x 2 b.pdf".toList].filter
          (fun l => decide (matchingLine asciiLower l))).map recordTask) := by
  have hnone : taskFilter asciiLower 0
      { lines := ["x 1 a.pdf".toList, longBlankLine, "x 2 b.pdf".toList],
        readErrorAt := none } = none :=
    taskFilter_of_err _ _ _ (by rw [scanIndex_longBlankLine 0 (by decide)])
  refine ⟨filter_longBlankLine, hnone, ?_⟩
  rw [hnone]
  exact fun h => Option.noConfusion h

/-- C3, amended: with the maximum count 0, on a body without line of 64 KiB or
more that is read without error, the task list is, in stream order, the list of
`{timestamp: field[1], originalURL: field[2]}` over exactly the lines with at
least 3 fields whose field 2, lower-cased, ends in `.doc`, `.docx` or `.pdf`; on
any other body `main` ends in `log.Fatalf` and there is no task list. -/
theorem taskFilter_unlimited (lowerRune : Char → Char) (s : IndexStream) :
    (s.readErrorAt = none → (∀ l ∈ s.lines, byteLen l < maxScanTokenSize) →
      taskFilter lowerRune 0 s
        = some ((s.lines.filter (fun l =>
              decide (3 ≤ (Fields l).length) &&
                (HasSuffix (ToLower lowerRune ((Fields l).getD 2 [])) extDoc ||
                 HasSuffix (ToLower lowerRune ((Fields l).getD 2 [])) extDocx ||
                 HasSuffix (ToLower lowerRune ((Fields l).getD 2 [])) extPdf))).map
            (fun l => { timestamp := (Fields l).getD 1 [],
                        originalURL := (Fields l).getD 2 [] }))) ∧
    (¬ (s.readErrorAt = none ∧ ∀ l ∈ s.lines, byteLen l < maxScanTokenSize) →
      taskFilter lowerRune 0 s = none) := by
  have hspec := scanLoop_spec lowerRune 0 s.readErrorAt s.lines 0
    { tasksSlice := [], downloadCount := 0 } (by intro h; exact h)
  refine ⟨?_, ?_⟩
  · intro he hshort
    have hok : (scanIndex lowerRune 0 s).scanErr = false :=
      hspec.2.2 he (scannedLines_of_short _ hshort)
    rw [taskFilter_of_ok _ _ _ hok, scanIndex_tasks, if_neg (by decide),
      scannedLines_of_short _ hshort, matchingTasks]
    congr 2
    apply List.filter_congr
    intro l _
    rw [Bool.eq_iff_iff]
    simp only [matchingLine, allowedURL, decide_eq_true_eq, Bool.and_eq_true, Bool.or_eq_true,
      HasSuffix_iff, or_assoc]
  · intro hbad
    apply taskFilter_of_err
    by_contra hne
    have hok : (scanIndex lowerRune 0 s).scanErr = false := by simpa using hne
    rcases hspec.2.1 hok with ⟨hpos, _⟩ | ⟨he, hsc⟩
    · exact absurd hpos (by decide)
    · exact hbad ⟨he, short_of_scannedLines _ hsc⟩

/-- Witness of C3: four lines, two of them matching. -/
theorem taskFilter_unlimited_witness :
    taskFilter asciiLower 0
        { lines := ["x 1 a.pdf".toList, "x 2 b.txt".toList, "bad".toList,
                    "x 3 c.DOCX".toList],
          readErrorAt := none }
      = some [{ timestamp := ['1'], originalURL := "a.pdf".toList },
              { timestamp := ['3'], originalURL := "c.DOCX".toList }] :=
  ((taskFilter_unlimited asciiLower
    { lines := ["x 1 a.pdf".toList, "x 2 b.txt".toList, "bad".toList, "x 3 c.DOCX".toList],
      readErrorAt := none }).1 rfl (by decide)).trans (by decide)

/-! ### Lines with fewer than 3 fields -/

theorem not_matching_of_short_fields (lowerRune : Char → Char) (line : GoString)
    (h : (Fields line).length < 3) : ¬ matchingLine lowerRune line :=
  fun hm => by have := hm.1; omega

/-- On a body read to `io.EOF` the number of the call of `Scan` does not matter. -/
theorem scanLoop_none_index (lowerRune : Char → Char) (maxDownloads : Int) :
    ∀ (lines : List GoString) (i j : Nat) (st : ScanState),
      scanLoop lowerRune maxDownloads none i lines st
        = scanLoop lowerRune maxDownloads none j lines st := by
  intro lines
  induction lines with
  | nil => intro i j st; simp [scanLoop]
  | cons raw rest ih =>
    intro i j st
    by_cases hl : maxScanTokenSize ≤ byteLen raw
    · rw [scanLoop_long _ _ _ _ _ _ _ hl, scanLoop_long _ _ _ _ _ _ _ hl]
    · have hs : byteLen raw < maxScanTokenSize := by omega
      by_cases hm : matchingLine lowerRune raw
      · rw [scanLoop_take _ _ _ _ _ _ _ hs hm, scanLoop_take _ _ _ _ _ _ _ hs hm,
          ih (i + 1) (j + 1)]
        simp [errRecorded]
      · rw [scanLoop_skip _ _ _ _ _ _ _ hs hm, scanLoop_skip _ _ _ _ _ _ _ hs hm,
          ih (i + 1) (j + 1)]

theorem scanLoop_filter_short (lowerRune : Char → Char) (maxDownloads : Int) :
    ∀ (lines : List GoString) (i j : Nat) (st : ScanState),
      (∀ l ∈ lines, (Fields l).length < 3 → byteLen l < maxScanTokenSize) →
      scanLoop lowerRune maxDownloads none i
          (lines.filter (fun l => decide (3 ≤ (Fields l).length))) st
        = scanLoop lowerRune maxDownloads none j lines st := by
  intro lines
  induction lines with
  | nil => intro i j st _; simp [scanLoop]
  | cons raw rest ih =>
    intro i j st hyp
    have hrest : ∀ l ∈ rest, (Fields l).length < 3 → byteLen l < maxScanTokenSize :=
      fun l hl => hyp l (List.mem_cons_of_mem _ hl)
    by_cases h3 : 3 ≤ (Fields raw).length
    · rw [List.filter_cons_of_pos (by simpa using h3)]
      by_cases hl : maxScanTokenSize ≤ byteLen raw
      · rw [scanLoop_long _ _ _ _ _ _ _ hl, scanLoop_long _ _ _ _ _ _ _ hl]
      · have hs : byteLen raw < maxScanTokenSize := by omega
        by_cases hm : matchingLine lowerRune raw
        · rw [scanLoop_take _ _ _ _ _ _ _ hs hm, scanLoop_take _ _ _ _ _ _ _ hs hm,
            ih (i + 1) (j + 1) _ hrest]
          simp [errRecorded]
        · rw [scanLoop_skip _ _ _ _ _ _ _ hs hm, scanLoop_skip _ _ _ _ _ _ _ hs hm,
            ih (i + 1) (j + 1) _ hrest]
    · have hf : (Fields raw).length < 3 := by omega
      rw [List.filter_cons_of_neg (by simpa using h3),
        scanLoop_skip _ _ _ _ _ _ _ (hyp raw (List.mem_cons_self _ _) hf)
          (not_matching_of_short_fields _ _ hf),
        ih i (j + 1) _ hrest]

theorem scanLoop_remove_short (lowerRune : Char → Char) (maxDownloads : Int)
    (line : GoString) (after : List GoString) (hf : (Fields line).length < 3)
    (hs : byteLen line < maxScanTokenSize) :
    ∀ (before : List GoString) (i j : Nat) (st : ScanState),
      scanLoop lowerRune maxDownloads none i (before ++ line :: after) st
        = scanLoop lowerRune maxDownloads none j (before ++ after) st := by
  intro before
  induction before with
  | nil =>
    intro i j st
    rw [List.nil_append, List.nil_append,
      scanLoop_skip _ _ _ _ _ _ _ hs (not_matching_of_short_fields _ _ hf)]
    exact scanLoop_none_index _ _ _ _ _ _
  | cons raw rest ih =>
    intro i j st
    simp only [List.cons_append]
    by_cases hl : maxScanTokenSize ≤ byteLen raw
    · rw [scanLoop_long _ _ _ _ _ _ _ hl, scanLoop_long _ _ _ _ _ _ _ hl]
    · have hs1 : byteLen raw < maxScanTokenSize := by omega
      by_cases hm : matchingLine lowerRune raw
      · rw [scanLoop_take _ _ _ _ _ _ _ hs1 hm, scanLoop_take _ _ _ _ _ _ _ hs1 hm,
          ih (i + 1) (j + 1)]
        simp [errRecorded]
      · rw [scanLoop_skip _ _ _ _ _ _ _ hs1 hm, scanLoop_skip _ _ _ _ _ _ _ hs1 hm,
          ih (i + 1) (j + 1)]

/-- The variables of the loop do not depend on when a read error is recorded. -/
theorem scanIndex_state_indep (lowerRune : Char → Char) (maxDownloads : Int)
    (lines : List GoString) (e : Option Nat) :
    (scanIndex lowerRune maxDownloads { lines := lines, readErrorAt := e }).state
      = (scanIndex lowerRune maxDownloads { lines := lines, readErrorAt := none }).state := by
  unfold scanIndex
  rw [(scanLoop_spec lowerRune maxDownloads e lines 0 _ (by intro h; exact h)).1,
    (scanLoop_spec lowerRune maxDownloads none lines 0 _ (by intro h; exact h)).1]

/-- C4 as stated fails: a blank line of 70000 bytes has no field, yet the body
`x 1 a.pdf`, blank line, `x 2 b.pdf` ends `main` in `log.Fatalf` (the scanner
stops with `ErrTooLong`), while the body without that line gives the two tasks. -/
theorem taskFilter_long_blank_line_changes_result :
    (Fields longBlankLine).length = 0 ∧
    ["x 1 a.pdf".toList, longBlankLine, "x 2 b.pdf".toList].filter
        (fun l => decide (3 ≤ (Fields l).length))
      = ["x 1 a.pdf".toList, "x 2 b.pdf".toList] ∧
    taskFilter asciiLower 0
        { lines := ["x 1 a.pdf".toList, longBlankLine, "x 2 b.pdf".toList],
          readErrorAt := none } = none ∧
    taskFilter asciiLower 0
        { lines := ["x 1 a.pdf".toList, "x 2 b.pdf".toList], readErrorAt := none }
      = some [{ timestamp := ['1'], originalURL := "a.pdf".toList },
              { timestamp := ['2'], originalURL := "b.pdf".toList }] := by
  refine ⟨by rw [Fields_longBlankLine]; rfl, ?_,
    taskFilter_of_err _ _ _ (by rw [scanIndex_longBlankLine 0 (by decide)]), by decide⟩
  rw [List.filter_cons_of_pos (by decide),
    List.filter_cons_of_neg (by rw [Fields_longBlankLine]; decide),
    List.filter_cons_of_pos (by decide)]
  rfl

/-- C4, amended: a line with fewer than 3 white-space-delimited fields and of less
than 64 KiB (so an empty line, and a white-space-only line of that size, which has
no field) gives no task and leaves the tasks of the other lines as they are: for
every maximum count the loop builds the same task list on a body and on the body
without such lines, and on a body read without read error `main` ends in the
same way, with the same task list, on both. -/
theorem taskFilter_skips_short_lines (lowerRune : Char → Char) (maxDownloads : Int) :
    (∀ lines : List GoString,
      (∀ l ∈ lines, (Fields l).length < 3 → byteLen l < maxScanTokenSize) →
      taskFilter lowerRune maxDownloads { lines := lines, readErrorAt := none }
        = taskFilter lowerRune maxDownloads
            { lines := lines.filter (fun l => decide (3 ≤ (Fields l).length)),
              readErrorAt := none } ∧
      ∀ e1 e2 : Option Nat,
        (scanIndex lowerRune maxDownloads { lines := lines, readErrorAt := e1 }).state
          = (scanIndex lowerRune maxDownloads
              { lines := lines.filter (fun l => decide (3 ≤ (Fields l).length)),
                readErrorAt := e2 }).state) ∧
    (∀ (before after : List GoString) (line : GoString), (Fields line).length < 3 →
      byteLen line < maxScanTokenSize →
      taskFilter lowerRune maxDownloads
          { lines := before ++ line :: after, readErrorAt := none }
        = taskFilter lowerRune maxDownloads
            { lines := before ++ after, readErrorAt := none }) ∧
    (∀ line : GoString, (Fields line).length < 3 → byteLen line < maxScanTokenSize →
      taskFilter lowerRune maxDownloads { lines := [line], readErrorAt := none }
        = some []) ∧
    (∀ line : GoString, (∀ c ∈ line, isSpace c = true) → (Fields line).length = 0) := by
  refine ⟨?_, ?_, ?_, ?_⟩
  · intro lines hyp
    have hex : scanIndex lowerRune maxDownloads { lines := lines, readErrorAt := none }
        = scanIndex lowerRune maxDownloads
            { lines := lines.filter (fun l => decide (3 ≤ (Fields l).length)),
              readErrorAt := none } := by
      unfold scanIndex
      exact (scanLoop_filter_short lowerRune maxDownloads lines 0 0 _ hyp).symm
    refine ⟨by unfold taskFilter; rw [hex], ?_⟩
    intro e1 e2
    rw [scanIndex_state_indep _ _ lines e1, scanIndex_state_indep _ _ _ e2, hex]
  · intro before after line hf hs
    have hex : scanIndex lowerRune maxDownloads
          { lines := before ++ line :: after, readErrorAt := none }
        = scanIndex lowerRune maxDownloads
            { lines := before ++ after, readErrorAt := none } := by
      unfold scanIndex
      exact scanLoop_remove_short lowerRune maxDownloads line after hf hs before 0 0 _
    unfold taskFilter
    rw [hex]
  · intro line hf hs
    exact taskFilter_single_skip _ _ _ hs (not_matching_of_short_fields _ _ hf)
  · intro line h
    unfold Fields
    rw [fieldsLoop_all_space _ _ h]
    rfl

/-- Witness of C4: a one-field line, an empty line and a blank line among two
matching records. -/
theorem taskFilter_skips_short_lines_witness :
    taskFilter asciiLower 0
        { lines := ["x 1 a.pdf".toList, "a.pdf".toList, [], " \t ".toList,
                    "x 2 b.doc".toList],
          readErrorAt := none }
      = taskFilter asciiLower 0
          { lines := ["x 1 a.pdf".toList, "x 2 b.doc".toList], readErrorAt := none } ∧
    taskFilter asciiLower 0 { lines := ["1 a.pdf".toList], readErrorAt := none }
      = some [] :=
  ⟨(((taskFilter_skips_short_lines asciiLower 0).1
      ["x 1 a.pdf".toList, "a.pdf".toList, [], " \t ".toList, "x 2 b.doc".toList]
      (by decide)).1).trans (by decide),
   (taskFilter_skips_short_lines asciiLower 0).2.2.1 "1 a.pdf".toList (by decide)
     (by decide)⟩

/-! ## File names: lemmas -/

theorem lastIndexByte_none (c : Char) : ∀ s : GoString, c ∉ s → lastIndexByte c s = none := by
  intro s
  induction s with
  | nil => intro _; rfl
  | cons x xs ih =>
    intro h
    have hx : ¬ x = c := fun e => h (e ▸ List.mem_cons_self _ _)
    have hxs : c ∉ xs := fun hm => h (List.mem_cons_of_mem _ hm)
    simp [lastIndexByte, ih hxs, hx]

theorem lastIndexByte_split (c : Char) (suf : GoString) (hs : c ∉ suf) :
    ∀ pre : GoString, lastIndexByte c (pre ++ c :: suf) = some pre.length := by
  intro pre
  induction pre with
  | nil => simp [lastIndexByte, lastIndexByte_none c suf hs]
  | cons x xs ih => simp [lastIndexByte, ih]

theorem exists_last_split (c : Char) :
    ∀ s : GoString, c ∈ s → ∃ pre suf, s = pre ++ c :: suf ∧ c ∉ suf := by
  intro s
  induction s with
  | nil => intro h; simp at h
  | cons x xs ih =>
    intro h
    by_cases hxs : c ∈ xs
    · obtain ⟨pre, suf, rfl, hsuf⟩ := ih hxs
      exact ⟨x :: pre, suf, rfl, hsuf⟩
    · have hx : c = x := by
        rcases List.mem_cons.1 h with h | h
        · exact h
        · exact absurd h hxs
      subst hx
      exact ⟨[], xs, rfl, hxs⟩

theorem stripTrailingSlashes_id (n : Nat) (p : GoString) (h : p.getLast? ≠ some '/') :
    stripTrailingSlashes n p = p := by
  cases n with
  | zero => rfl
  | succ n => rw [stripTrailingSlashes, if_neg h]

theorem getLast?_append_ne (pre tail : GoString) (c : Char) (hne : tail ≠ [])
    (hc : c ∉ tail) : (pre ++ tail).getLast? ≠ some c := by
  rw [List.getLast?_append_of_ne_nil _ hne]
  intro h
  exact hc (List.mem_of_getLast?_eq_some h)

/-- `path.Base` of a path that does not end in a slash, by its last slash. -/
theorem pathBase_split (pre suf : GoString) (hne : suf ≠ []) (hs : '/' ∉ suf) :
    pathBase (pre ++ '/' :: suf) = suf := by
  have hlast : (pre ++ '/' :: suf).getLast? ≠ some '/' := by
    have := getLast?_append_ne (pre ++ ['/']) suf '/' hne hs
    simpa using this
  unfold pathBase
  rw [if_neg (by simp)]
  simp only [stripTrailingSlashes_id _ _ hlast, lastIndexByte_split '/' suf hs pre]
  simp [hne]

theorem pathBase_noslash (p : GoString) (hne : p ≠ []) (hs : '/' ∉ p) : pathBase p = p := by
  have hlast : p.getLast? ≠ some '/' := fun h => hs (List.mem_of_getLast?_eq_some h)
  unfold pathBase
  rw [if_neg hne]
  simp only [stripTrailingSlashes_id _ _ hlast, lastIndexByte_none '/' p hs]
  simp [hne]

/-- The default name of a URL that ends in a slash-free, non-empty `tail`:
it ends in `tail` too, and is the part after the last slash. -/
theorem pathBase_of_tail (url pre tail : GoString) (hurl : url = pre ++ tail)
    (hne : tail ≠ []) (hs : '/' ∉ tail) :
    tail <:+ pathBase url ∧ '/' ∉ pathBase url ∧
    (∀ p s : GoString, url = p ++ '/' :: s → '/' ∉ s → pathBase url = s) ∧
    ('/' ∉ url → pathBase url = url) := by
  have hune : url ≠ [] := by rw [hurl]; simp [hne]
  have hsplit : ∀ p s : GoString, url = p ++ '/' :: s → '/' ∉ s →
      s ≠ [] ∧ tail <:+ s := by
    intro p s hps hs'
    have h1 : tail <:+ url := ⟨pre, hurl.symm⟩
    have h2 : ('/' :: s) <:+ url := ⟨p, hps.symm⟩
    have h3 : s <:+ url := ⟨p ++ ['/'], by rw [hps]; simp⟩
    by_cases hl : tail.length ≤ s.length
    · have hts := List.suffix_of_suffix_length_le h1 h3 hl
      refine ⟨?_, hts⟩
      intro he
      rw [he] at hts
      exact hne (List.suffix_nil.1 hts)
    · have hst := List.suffix_of_suffix_length_le h2 h1 (by simp; omega)
      exact absurd (hst.subset (List.mem_cons_self _ _)) hs
  by_cases hmem : '/' ∈ url
  · obtain ⟨p, s, hps, hs'⟩ := exists_last_split '/' url hmem
    obtain ⟨hsne, hts⟩ := hsplit p s hps hs'
    have hb : pathBase url = s := by rw [hps]; exact pathBase_split p s hsne hs'
    refine ⟨by rw [hb]; exact hts, by rw [hb]; exact hs', ?_, fun h => absurd hmem h⟩
    intro p2 s2 hps2 hs2
    obtain ⟨hsne2, _⟩ := hsplit p2 s2 hps2 hs2
    rw [hps2]
    exact pathBase_split p2 s2 hsne2 hs2
  · have hb : pathBase url = url := pathBase_noslash url hune hmem
    refine ⟨by rw [hb]; exact ⟨pre, hurl.symm⟩, by rw [hb]; exact hmem, ?_, fun _ => hb⟩
    intro p s hps _
    exact absurd (hps ▸ List.mem_append_right p (List.mem_cons_self _ _)) hmem

theorem lowerRune_slash (lowerRune : Char → Char) (hl : AgreesOnASCII lowerRune) :
    lowerRune '/' = '/' := by
  rw [hl '/' (by decide)]; rfl

/-- An ending `ext` of the lower-cased URL comes from an ending `tail` of the URL;
`tail` has no slash when `ext` has none. -/
theorem tail_of_lower_suffix (lowerRune : Char → Char) (hl : AgreesOnASCII lowerRune)
    (url ext : GoString) (hs : '/' ∉ ext) (h : ext <:+ ToLower lowerRune url) :
    ∃ pre tail, url = pre ++ tail ∧ tail.map lowerRune = ext ∧ '/' ∉ tail := by
  obtain ⟨L, hL⟩ := h
  unfold ToLower at hL
  obtain ⟨pre, tail, hurl, _, htail⟩ := List.map_eq_append_iff.1 hL.symm
  refine ⟨pre, tail, hurl, htail, ?_⟩
  intro hmem
  apply hs
  rw [← htail, ← lowerRune_slash lowerRune hl]
  exact List.mem_map_of_mem _ hmem

theorem defaultNameOK_of_allowed (lowerRune : Char → Char) (hl : AgreesOnASCII lowerRune)
    (url : GoString) (h : allowedURL lowerRune url) : DefaultNameOK lowerRune url := by
  -- some allowed extension `e` ends the lower-cased URL
  have hext : ∃ e : GoString, e <:+ ToLower lowerRune url ∧ '/' ∉ e ∧ 4 ≤ e.length := by
    rcases h with h | h | h
    · exact ⟨extDoc, h, by decide, by decide⟩
    · exact ⟨extDocx, h, by decide, by decide⟩
    · exact ⟨extPdf, h, by decide, by decide⟩
  obtain ⟨e, he, hes, hlen⟩ := hext
  obtain ⟨pre, tail, hurl, hmap, hts⟩ := tail_of_lower_suffix lowerRune hl url e hes he
  have htl : 4 ≤ tail.length := by
    have := congrArg List.length hmap
    rw [List.length_map] at this
    omega
  have htne : tail ≠ [] := by intro he0; rw [he0] at htl; simp at htl
  obtain ⟨hsuf, hns, hsplit, hwhole⟩ := pathBase_of_tail url pre tail hurl htne hts
  have hblen : 4 ≤ (pathBase url).length := le_trans htl hsuf.length_le
  refine ⟨?_, hns, hsplit, hwhole, ?_, ?_, ?_, ?_⟩
  · intro h0; rw [h0] at hblen; simp at hblen
  · intro ext hmem hsx
    rw [HasSuffix_iff] at hsx ⊢
    have hxs : '/' ∉ ext := by
      simp only [List.mem_cons, List.mem_singleton, List.not_mem_nil, or_false] at hmem
      rcases hmem with rfl | rfl | rfl <;> decide
    have hxne : ext ≠ [] := by
      simp only [List.mem_cons, List.mem_singleton, List.not_mem_nil, or_false] at hmem
      rcases hmem with rfl | rfl | rfl <;> decide
    obtain ⟨pre2, tail2, hurl2, hmap2, hts2⟩ :=
      tail_of_lower_suffix lowerRune hl url ext hxs hsx
    have htne2 : tail2 ≠ [] := by
      intro h0; rw [h0] at hmap2; exact hxne hmap2.symm
    obtain ⟨hsuf2, _, _, _⟩ := pathBase_of_tail url pre2 tail2 hurl2 htne2 hts2
    obtain ⟨q, hq⟩ := hsuf2
    exact ⟨q.map lowerRune, by rw [← hmap2, ← List.map_append, hq]; rfl⟩
  · intro h0; rw [h0] at hblen; simp at hblen
  · intro h0; rw [h0] at hblen; simp at hblen
  · intro h0; rw [h0] at hblen; simp at hblen

/-! ## File names: the claims -/

/-- C10: for every URL whose lower-cased form ends in `.doc`, `.docx` or `.pdf`, and
so for every task the scanning loop appends, the default file name
`path.Base(originalURL)` is not empty, has no slash, is the part of the URL after
its last slash (the whole URL when it has none), ends, lower-cased, in the same
extension, and is none of `.`, `/`, `..`. -/
theorem pathBase_of_task (lowerRune : Char → Char) (hl : AgreesOnASCII lowerRune) :
    (∀ url : GoString,
      (HasSuffix (ToLower lowerRune url) extDoc = true ∨
        HasSuffix (ToLower lowerRune url) extDocx = true ∨
        HasSuffix (ToLower lowerRune url) extPdf = true) →
      DefaultNameOK lowerRune url) ∧
    (∀ (maxDownloads : Int) (s : IndexStream),
      ∀ t ∈ (scanIndex lowerRune maxDownloads s).state.tasksSlice,
        DefaultNameOK lowerRune t.originalURL) := by
  refine ⟨?_, ?_⟩
  · intro url h
    exact defaultNameOK_of_allowed lowerRune hl url (by simpa only [HasSuffix_iff] using h)
  · intro maxDownloads s t ht
    obtain ⟨line, _, hm, rfl⟩ := mem_scanIndex _ _ _ _ ht
    exact defaultNameOK_of_allowed lowerRune hl _ hm.2

/-- Witness of C10 at `https://example.com/files/doc1.docx`. -/
theorem pathBase_of_task_witness :
    pathBase "https://example.com/files/doc1.docx".toList = "doc1.docx".toList ∧
    DefaultNameOK asciiLower "https://example.com/files/doc1.docx".toList :=
  ⟨by decide,
   (pathBase_of_task asciiLower agreesOnASCII_asciiLower).1
     "https://example.com/files/doc1.docx".toList (by decide)⟩

/-- C6: the destination file name of `worker` is the `filename` parameter of the
`Content-Disposition` header when the header is not empty, parses without error
and has that parameter, and `path.Base(originalURL)` in every other case (empty
or absent header, parse error, no `filename` parameter); a successful download is
written to `filepath.Join(outputDir, name)` for that name.  With no header,
`https://example.com/files/doc1.docx` gives `doc1.docx`. -/
theorem resolveFileName_spec (parseMediaType : GoString → MediaType) (task : downloadTask)
    (cd : GoString) :
    (∀ (mediatype : GoString) (params : GoString → Option GoString) (fname : GoString),
      cd ≠ [] → parseMediaType cd = some (mediatype, params) →
      params filenameKey = some fname →
      resolveFileName parseMediaType task cd = fname) ∧
    (cd = [] → resolveFileName parseMediaType task cd = pathBase task.originalURL) ∧
    (parseMediaType cd = none →
      resolveFileName parseMediaType task cd = pathBase task.originalURL) ∧
    (∀ (mediatype : GoString) (params : GoString → Option GoString),
      parseMediaType cd = some (mediatype, params) → params filenameKey = none →
      resolveFileName parseMediaType task cd = pathBase task.originalURL) ∧
    (task.originalURL = "https://example.com/files/doc1.docx".toList → cd = [] →
      resolveFileName parseMediaType task cd = "doc1.docx".toList) ∧
    (∀ (id : Nat) (dir : GoString),
      processTask parseMediaType id dir task (.response 200 cd false false)
        = [.downloading id (downloadURL task),
           .fileWritten id (Join dir (resolveFileName parseMediaType task cd)),
           .completed id (Join dir (resolveFileName parseMediaType task cd))]) := by
  refine ⟨?_, ?_, ?_, ?_, ?_, ?_⟩
  · intro mediatype params fname hcd hp hf
    simp [resolveFileName, hcd, hp, hf]
  · intro hcd
    simp [resolveFileName, hcd]
  · intro hp
    by_cases hcd : cd = [] <;> simp [resolveFileName, hcd, hp]
  · intro mediatype params hp hf
    by_cases hcd : cd = [] <;> simp [resolveFileName, hcd, hp, hf]
  · intro hurl hcd
    simp only [resolveFileName, hcd, ne_eq, not_true_eq_false, if_false, hurl]
    decide
  · intro id dir
    simp [processTask]

/-- Witness of C6: the header `attachment; filename="report.pdf"` gives
`report.pdf`, whatever the URL of the task. -/
theorem resolveFileName_spec_witness :
    resolveFileName (attachmentParser "report.pdf".toList)
        { timestamp := "2020".toList, originalURL := "https://example.com/get.pdf".toList }
        (attachmentHeader "report.pdf".toList)
      = "report.pdf".toList :=
  (resolveFileName_spec (attachmentParser "report.pdf".toList)
      { timestamp := "2020".toList, originalURL := "https://example.com/get.pdf".toList }
      (attachmentHeader "report.pdf".toList)).1
    "attachment".toList (fun key => if key = filenameKey then some "report.pdf".toList else none)
    "report.pdf".toList (by decide) rfl (by decide)

theorem takeWhile_noslash (s : GoString) (h : '/' ∉ s) :
    s.takeWhile (fun x => x != '/') = s ∧ s.dropWhile (fun x => x != '/') = [] := by
  induction s with
  | nil => exact ⟨rfl, rfl⟩
  | cons x xs ih =>
    have hx : x ≠ '/' := fun e => h (e ▸ List.mem_cons_self _ _)
    have hxs := ih (fun hm => h (List.mem_cons_of_mem _ hm))
    simp [List.takeWhile_cons, List.dropWhile_cons, hx, hxs.1, hxs.2]

/-- A plain name joined to `output` stays in `output`. -/
theorem Join_outputDir_name (name : GoString) (hne : name ≠ []) (hs : '/' ∉ name)
    (hdot : name ≠ ['.']) (hdotdot : name ≠ ['.', '.']) :
    Join outputDir name = outputDir ++ '/' :: name ∧
      strictlyInside outputDir (Join outputDir name) := by
  have hj : Join outputDir name = outputDir ++ '/' :: name := by
    cases name with
    | nil => exact absurd rfl hne
    | cons c cs =>
      have hc : c ≠ '/' := fun e => hs (e ▸ List.mem_cons_self _ _)
      have hcs : '/' ∉ cs := fun hm => hs (List.mem_cons_of_mem _ hm)
      have htd := takeWhile_noslash cs hcs
      have h1 : ¬ (c = '.' ∧ (cs = [] ∨ cs.head? = some '/')) := by
        rintro ⟨rfl, h | h⟩
        · exact hdot (by rw [h])
        · exact hcs (List.mem_of_mem_head? h)
      have h2 : ¬ (c = '.' ∧ cs.head? = some '.' ∧
          (cs.tail = [] ∨ cs.tail.head? = some '/')) := by
        rintro ⟨rfl, hh, h | h⟩
        · cases cs with
          | nil => simp at hh
          | cons d ds =>
            simp only [List.head?_cons, Option.some.injEq] at hh
            simp only [List.tail_cons] at h
            exact hdotdot (by rw [hh, h])
        · exact hcs (List.mem_of_mem_tail (List.mem_of_mem_head? h))
      have h3 : ¬ (c = '.' ∧ cs.head? = some '.' ∧ (cs.tail = [] ∨ cs[1]? = some '/')) := by
        simpa using h2
      simp only [Join, outputDir, Clean]
      simp [cleanLoop, hc, h1, htd.1, htd.2]
      simp [h3]
  refine ⟨hj, ?_⟩
  rw [hj]
  refine ⟨⟨name, by simp⟩, ?_⟩
  have : 0 < name.length := List.length_pos.2 hne
  simp
  omega

/-- The sibling path of C7: with no usable `Content-Disposition` header the file of
a task produced by the scanning loop is created strictly inside `output`: the
name taken from the URL is cut down to its last path element by `path.Base`. -/
theorem default_path_inside (lowerRune : Char → Char) (hl : AgreesOnASCII lowerRune)
    (parseMediaType : GoString → MediaType) (maxDownloads : Int) (s : IndexStream)
    (t : downloadTask) (ht : t ∈ (scanIndex lowerRune maxDownloads s).state.tasksSlice) :
    resolveFileName parseMediaType t [] = pathBase t.originalURL ∧
    Join outputDir (resolveFileName parseMediaType t [])
      = outputDir ++ '/' :: pathBase t.originalURL ∧
    strictlyInside outputDir (Join outputDir (resolveFileName parseMediaType t [])) := by
  obtain ⟨line, _, hm, rfl⟩ := mem_scanIndex _ _ _ _ ht
  obtain ⟨hne, hns, _, _, _, hdot, _, hdotdot⟩ :=
    defaultNameOK_of_allowed lowerRune hl _ hm.2
  have hr : resolveFileName parseMediaType (recordTask line) []
      = pathBase (recordTask line).originalURL := by
    simp [resolveFileName]
  rw [hr]
  exact ⟨rfl, Join_outputDir_name _ hne hns hdot hdotdot⟩

/-- C7, at the failing input: on a response whose `Content-Disposition` file name is
`../evil.pdf`, the worker creates `filepath.Join("output", "../evil.pdf")`, which
is `evil.pdf`, a path that is not inside `output`. -/
theorem outFilePath_escapes_outputDir :
    processTask (attachmentParser "../evil.pdf".toList) 1 outputDir
        { timestamp := "2020".toList, originalURL := "http://example.com/a.pdf".toList }
        (.response 200 (attachmentHeader "../evil.pdf".toList) false false)
      = [.downloading 1 "https://web.archive.org/web/2020/http://example.com/a.pdf".toList,
         .fileWritten 1 "evil.pdf".toList, .completed 1 "evil.pdf".toList] ∧
    ¬ strictlyInside outputDir "evil.pdf".toList := by
  decide

theorem summaryCount_eq (lowerRune : Char → Char) (maxDownloads : Int) (s : IndexStream) :
    summaryCount lowerRune maxDownloads s
      = (taskFilter lowerRune maxDownloads s).map (fun tasks => (tasks.length : Int)) := by
  unfold summaryCount taskFilter
  split
  · rfl
  · simp [scanIndex_count]

/-- C5, at the failing input: the number printed by `Done! Total downloaded files`
is always the number of tasks created; on an index of one matching record whose
download is answered with status 404 it is 1, while no file is written. -/
theorem summaryCount_counts_tasks :
    (∀ (lowerRune : Char → Char) (maxDownloads : Int) (s : IndexStream),
      summaryCount lowerRune maxDownloads s
        = (taskFilter lowerRune maxDownloads s).map (fun tasks => (tasks.length : Int))) ∧
    taskFilter asciiLower 0
        { lines :=
            ["com,example)/a.pdf 2020 http://example.com/a.pdf application/pdf 200 H 9".toList],
          readErrorAt := none }
      = some [{ timestamp := "2020".toList,
                originalURL := "http://example.com/a.pdf".toList }] ∧
    summaryCount asciiLower 0
        { lines :=
            ["com,example)/a.pdf 2020 http://example.com/a.pdf application/pdf 200 H 9".toList],
          readErrorAt := none } = some 1 ∧
    filesWritten (worker (fun _ => none) 1 outputDir
      [({ timestamp := "2020".toList, originalURL := "http://example.com/a.pdf".toList },
        .response 404 [] false false)] []) = 0 :=
  ⟨fun lowerRune maxDownloads s => summaryCount_eq lowerRune maxDownloads s,
   by decide, by decide, by decide⟩

/-! ## The worker loop -/

theorem worker_eq (parseMediaType : GoString → MediaType) (id : Nat) (dir : GoString) :
    ∀ (jobs : List (downloadTask × Reply)) (log : List Event),
      worker parseMediaType id dir jobs log
        = log ++ (jobs.map (fun j => processTask parseMediaType id dir j.1 j.2)).flatten := by
  intro jobs
  induction jobs with
  | nil => intro log; simp [worker]
  | cons j rest ih =>
    intro log
    obtain ⟨task, reply⟩ := j
    rw [worker, ih]
    simp

theorem attempts_processTask (parseMediaType : GoString → MediaType) (id : Nat)
    (dir : GoString) (task : downloadTask) (reply : Reply) :
    attempts (processTask parseMediaType id dir task reply) = [downloadURL task] := by
  cases reply with
  | requestError => rfl
  | transportError => rfl
  | response statusCode cd createFails copyFails =>
    simp only [processTask]
    split_ifs <;> rfl

/-- C8: a worker, run over the tasks it receives with any answer of the outside
world to each, does for every task what the loop body does for that task and its
own answer, once and in the order received: what it does for a task is the same
whatever tasks and answers come before or after, and a 404 on one task is
followed by the completion of the next. -/
theorem worker_isolation (parseMediaType : GoString → MediaType) (id : Nat)
    (dir : GoString) :
    (∀ jobs : List (downloadTask × Reply),
      worker parseMediaType id dir jobs []
        = (jobs.map (fun j => processTask parseMediaType id dir j.1 j.2)).flatten) ∧
    (∀ jobs : List (downloadTask × Reply),
      attempts (worker parseMediaType id dir jobs []) = jobs.map (fun j => downloadURL j.1)) ∧
    (∀ (before after : List (downloadTask × Reply)) (task : downloadTask) (reply : Reply),
      worker parseMediaType id dir (before ++ (task, reply) :: after) []
        = worker parseMediaType id dir before []
          ++ processTask parseMediaType id dir task reply
          ++ worker parseMediaType id dir after []) ∧
    (∀ (failed next : downloadTask) (cd1 cd2 : GoString) (c1 c2 : Bool),
      worker parseMediaType id dir
          [(failed, .response 404 cd1 c1 c2), (next, .response 200 cd2 false false)] []
        = [.downloading id (downloadURL failed), .logStatus id (downloadURL failed) 404,
           .downloading id (downloadURL next),
           .fileWritten id (Join dir (resolveFileName parseMediaType next cd2)),
           .completed id (Join dir (resolveFileName parseMediaType next cd2))]) := by
  refine ⟨?_, ?_, ?_, ?_⟩
  · intro jobs
    rw [worker_eq]; simp
  · intro jobs
    rw [worker_eq]
    induction jobs with
    | nil => rfl
    | cons j rest ih =>
      simp only [List.nil_append, List.map_cons, List.flatten_cons] at ih ⊢
      rw [attempts, List.filterMap_append, ← attempts, ← attempts, attempts_processTask, ih]
      rfl
  · intro before after task reply
    rw [worker_eq, worker_eq, worker_eq]
    simp
  · intro failed next cd1 cd2 c1 c2
    simp [worker, processTask]

/-! ## Dispatch: lemmas -/

theorem poolInv_init (tasksSlice : List downloadTask) :
    PoolInv tasksSlice (initPool tasksSlice) := by
  refine ⟨by simp [initPool, pending], by simp [initPool], by simp [initPool], ?_⟩
  intro rest _ p hp
  simp only [initPool, List.mem_replicate] at hp
  rw [hp.2]
  exact fun h => WorkerPhase.noConfusion h

theorem lt_of_getElem?_some {α : Type} (l : List α) (w : Nat) (p : α)
    (h : l[w]? = some p) : w < l.length := by
  by_contra hlt
  rw [List.getElem?_eq_none (by omega)] at h
  exact Option.noConfusion h

theorem poolInv_step (tasksSlice : List downloadTask) (a : Action) (s s1 : Pool)
    (hinv : PoolInv tasksSlice s) (h : step a s = some s1) : PoolInv tasksSlice s1 := by
  obtain ⟨hrec, hlen, hbound, hlive⟩ := hinv
  cases a with
  | handoff w =>
    simp only [step] at h
    split at h
    · rename_i t rest hmain hw
      simp only [Option.some.injEq] at h
      subst h
      have hwlt : w < numWorkers := hlen ▸ lt_of_getElem?_some _ _ _ hw
      refine ⟨?_, by simpa using hlen, ?_, ?_⟩
      · simp only [pending, hmain] at hrec
        simpa [pending] using hrec
      · intro e he
        rcases List.mem_append.1 he with he | he
        · exact hbound e he
        · simp only [List.mem_singleton] at he
          rw [he]; exact hwlt
      · intro rest1 _ p hp
        rcases List.mem_or_eq_of_mem_set hp with hp | hp
        · exact hlive _ hmain p hp
        · rw [hp]; exact fun h => WorkerPhase.noConfusion h
    · exact Option.noConfusion h
  | finish w =>
    simp only [step] at h
    split at h
    · simp only [Option.some.injEq] at h
      subst h
      refine ⟨hrec, by simpa using hlen, hbound, ?_⟩
      intro rest hmain p hp
      rcases List.mem_or_eq_of_mem_set hp with hp | hp
      · exact hlive rest hmain p hp
      · rw [hp]; exact fun h => WorkerPhase.noConfusion h
    · exact Option.noConfusion h
  | close =>
    simp only [step] at h
    split at h
    · rename_i hmain
      simp only [Option.some.injEq] at h
      subst h
      refine ⟨?_, hlen, hbound, ?_⟩
      · simp only [pending, hmain] at hrec
        simpa [pending] using hrec
      · intro rest hmain1
        exact MainPhase.noConfusion hmain1
    · exact Option.noConfusion h
  | exit w =>
    simp only [step] at h
    split at h
    · rename_i hmain hw
      simp only [Option.some.injEq] at h
      subst h
      refine ⟨?_, by simpa using hlen, hbound, ?_⟩
      · simpa [pending, hmain] using hrec
      · intro rest hmain1
        rw [hmain] at hmain1
        exact MainPhase.noConfusion hmain1
    · exact Option.noConfusion h
  | join =>
    simp only [step] at h
    split at h
    · rename_i hmain
      split at h
      · simp only [Option.some.injEq] at h
        subst h
        refine ⟨?_, hlen, hbound, ?_⟩
        · simpa [pending, hmain] using hrec
        · intro rest hmain1
          exact MainPhase.noConfusion hmain1
      · exact Option.noConfusion h
    · exact Option.noConfusion h

theorem poolInv_run (tasksSlice : List downloadTask) :
    ∀ (schedule : List Action) (s s1 : Pool), PoolInv tasksSlice s →
      run schedule s = some s1 → PoolInv tasksSlice s1 := by
  intro schedule
  induction schedule with
  | nil =>
    intro s s1 hinv h
    simp only [run, Option.some.injEq] at h
    exact h ▸ hinv
  | cons a rest ih =>
    intro s s1 hinv h
    simp only [run] at h
    split at h
    · rename_i s2 hs2
      exact ih s2 s1 (poolInv_step tasksSlice a s s2 hinv hs2) h
    · exact Option.noConfusion h

theorem weight_set (q : WorkerPhase) :
    ∀ (l : List WorkerPhase) (w : Nat) (p : WorkerPhase), l[w]? = some p →
      ((l.set w q).map phaseWeight).sum + phaseWeight p
        = (l.map phaseWeight).sum + phaseWeight q := by
  intro l
  induction l with
  | nil => intro w p h; simp at h
  | cons x xs ih =>
    intro w p h
    cases w with
    | zero =>
      simp only [List.getElem?_cons_zero, Option.some.injEq] at h
      subst h
      simp only [List.set_cons_zero, List.map_cons, List.sum_cons]
      omega
    | succ w =>
      simp only [List.getElem?_cons_succ] at h
      have := ih w p h
      simp only [List.set_cons_succ, List.map_cons, List.sum_cons]
      omega

theorem stepsLeft_step (a : Action) (s s1 : Pool) (h : step a s = some s1) :
    stepsLeft s1 < stepsLeft s ∧
      (pending s1 = pending s ∨ ∃ t, pending s = t :: pending s1) := by
  cases a with
  | handoff w =>
    simp only [step] at h
    split at h
    · rename_i t rest hmain hw
      simp only [Option.some.injEq] at h
      subst h
      have := weight_set (.busy t) s.workers w .receiving hw
      simp only [phaseWeight] at this
      refine ⟨?_, Or.inr ⟨t, by simp [pending, hmain]⟩⟩
      simp only [stepsLeft, hmain, List.length_cons]
      omega
    · exact Option.noConfusion h
  | finish w =>
    simp only [step] at h
    split at h
    · rename_i t hw
      simp only [Option.some.injEq] at h
      subst h
      have := weight_set .receiving s.workers w (.busy t) hw
      simp only [phaseWeight] at this
      refine ⟨?_, Or.inl (by simp [pending])⟩
      simp only [stepsLeft]
      omega
    · exact Option.noConfusion h
  | close =>
    simp only [step] at h
    split at h
    · rename_i hmain
      simp only [Option.some.injEq] at h
      subst h
      refine ⟨?_, Or.inl (by simp [pending, hmain])⟩
      simp only [stepsLeft, hmain, List.length_nil]
      omega
    · exact Option.noConfusion h
  | exit w =>
    simp only [step] at h
    split at h
    · rename_i hmain hw
      simp only [Option.some.injEq] at h
      subst h
      have := weight_set .returned s.workers w .receiving hw
      simp only [phaseWeight] at this
      refine ⟨?_, Or.inl (by simp [pending])⟩
      simp only [stepsLeft]
      omega
    · exact Option.noConfusion h
  | join =>
    simp only [step] at h
    split at h
    · rename_i hmain
      split at h
      · simp only [Option.some.injEq] at h
        subst h
        refine ⟨?_, Or.inl (by simp [pending, hmain])⟩
        simp only [stepsLeft, hmain]
        omega
      · exact Option.noConfusion h
    · exact Option.noConfusion h

theorem exists_index_of_mem (l : List WorkerPhase) (p : WorkerPhase) (h : p ∈ l) :
    ∃ w : Nat, l[w]? = some p := by
  exact List.getElem?_of_mem h

/-- No deadlock: while `main` is not past `wg.Wait()`, some action is enabled. -/
theorem step_enabled (tasksSlice : List downloadTask) (s : Pool)
    (hinv : PoolInv tasksSlice s) (hmain : s.main ≠ .done) :
    ∃ a s1, step a s = some s1 := by
  obtain ⟨_, hlen, _, hlive⟩ := hinv
  by_cases hbusy : ∃ p ∈ s.workers, ∃ t, p = WorkerPhase.busy t
  · obtain ⟨p, hp, t, rfl⟩ := hbusy
    obtain ⟨w, hw⟩ := exists_index_of_mem _ _ hp
    exact ⟨.finish w, _, by simp only [step, hw]; rfl⟩
  · have hnb : ∀ p ∈ s.workers, ∀ t, p ≠ WorkerPhase.busy t := by
      intro p hp t he
      exact hbusy ⟨p, hp, t, he⟩
    cases hm : s.main with
    | sending rest =>
      cases rest with
      | nil => exact ⟨.close, _, by simp only [step, hm]; rfl⟩
      | cons t rest =>
        have h0 : 0 < s.workers.length := by rw [hlen]; decide
        have hmem : s.workers[0] ∈ s.workers := List.getElem_mem h0
        have hrecv : s.workers[0] = .receiving := by
          cases hp : s.workers[0] with
          | receiving => rfl
          | busy t1 => exact absurd hp (hnb _ hmem t1)
          | returned => exact absurd hp (hlive _ hm _ hmem)
        have hw : s.workers[0]? = some .receiving := by
          rw [List.getElem?_eq_getElem h0, hrecv]
        exact ⟨.handoff 0, _, by simp only [step, hm, hw]; rfl⟩
    | waiting =>
      by_cases hrecv : WorkerPhase.receiving ∈ s.workers
      · obtain ⟨w, hw⟩ := exists_index_of_mem _ _ hrecv
        exact ⟨.exit w, _, by simp only [step, hm, hw]; rfl⟩
      · have hall : s.workers.all (fun p => p == .returned) = true := by
          rw [List.all_eq_true]
          intro p hp
          cases p with
          | receiving => exact absurd hp hrecv
          | busy t1 => exact absurd rfl (hnb _ hp t1)
          | returned => rfl
        exact ⟨.join, _, by simp only [step, hm, hall, if_true]; rfl⟩
    | done => exact absurd hm hmain

/-- Every state of a run can be run on until `wg.Wait()` has returned. -/
theorem run_completes (tasksSlice : List downloadTask) :
    ∀ (n : Nat) (s : Pool), stepsLeft s ≤ n → PoolInv tasksSlice s →
      ∃ more s2, run more s = some s2 ∧ s2.main = .done := by
  intro n
  induction n with
  | zero =>
    intro s hn hinv
    by_cases hd : s.main = .done
    · exact ⟨[], s, rfl, hd⟩
    · obtain ⟨a, s1, h1⟩ := step_enabled tasksSlice s hinv hd
      have := (stepsLeft_step a s s1 h1).1
      omega
  | succ n ih =>
    intro s hn hinv
    by_cases hd : s.main = .done
    · exact ⟨[], s, rfl, hd⟩
    · obtain ⟨a, s1, h1⟩ := step_enabled tasksSlice s hinv hd
      have hlt := (stepsLeft_step a s s1 h1).1
      obtain ⟨more, s2, hrun, hdone⟩ :=
        ih s1 (by omega) (poolInv_step tasksSlice a s s1 hinv h1)
      exact ⟨a :: more, s2, by simp only [run, h1, hrun], hdone⟩

/-! ## Dispatch: the claim -/

/-- C9: in every run of `main` and the 5 workers from the dispatch loop on, the
tasks received, in the order of the receives, followed by the tasks still to send
are the task list, so each element is sent once, in creation order, and no action
puts a task back; every receive is by one of the 5 workers; when `wg.Wait()` has
returned every task has been received exactly once, the task at position `i` by
exactly one worker; and every run can be run on to that end and takes a bounded
number of actions. -/
theorem dispatch_exactly_once (tasksSlice : List downloadTask) (schedule : List Action)
    (s : Pool) (h : run schedule (initPool tasksSlice) = some s) :
    s.received.map Prod.snd ++ pending s = tasksSlice ∧
    (∀ e ∈ s.received, e.1 < numWorkers) ∧
    (s.main = .done →
      s.received.map Prod.snd = tasksSlice ∧
      ∀ (i : Nat) (t : downloadTask), tasksSlice[i]? = some t →
        ∃! w, s.received[i]? = some (w, t)) ∧
    (∀ (a : Action) (s1 : Pool), step a s = some s1 →
      stepsLeft s1 < stepsLeft s ∧
        (pending s1 = pending s ∨ ∃ t, pending s = t :: pending s1)) ∧
    (∃ more s2, run more s = some s2 ∧ s2.main = .done) := by
  have hinv := poolInv_run tasksSlice schedule _ s (poolInv_init tasksSlice) h
  have hrec := hinv.1
  have hbound := hinv.2.2.1
  refine ⟨hrec, hbound, ?_, fun a s1 h1 => stepsLeft_step a s s1 h1,
    run_completes tasksSlice (stepsLeft s) s (le_refl _) hinv⟩
  intro hdone
  have hall : s.received.map Prod.snd = tasksSlice := by
    simpa [pending, hdone] using hrec
  refine ⟨hall, ?_⟩
  intro i t hi
  rw [← hall, List.getElem?_map] at hi
  cases hr : s.received[i]? with
  | none => rw [hr] at hi; exact Option.noConfusion hi
  | some e =>
    rw [hr] at hi
    simp only [Option.map_some', Option.some.injEq] at hi
    refine ⟨e.1, ?_, ?_⟩
    · show some e = some (e.1, t)
      rw [← hi]
    · intro w hw
      simp only [Option.some.injEq] at hw
      rw [hw]

/-- Witness of C9: two tasks, the first received by worker 2, the second by
worker 0, in a run to the end. -/
theorem dispatch_exactly_once_witness :
    (List.map Prod.snd [(2, ({ timestamp := ['1'], originalURL := "a.pdf".toList } : downloadTask)),
        (0, { timestamp := ['2'], originalURL := "b.doc".toList })])
      = [{ timestamp := ['1'], originalURL := "a.pdf".toList },
         { timestamp := ['2'], originalURL := "b.doc".toList }] :=
  ((dispatch_exactly_once
      [{ timestamp := ['1'], originalURL := "a.pdf".toList },
       { timestamp := ['2'], originalURL := "b.doc".toList }]
      [.handoff 2, .handoff 0, .finish 2, .close, .exit 2, .exit 1, .finish 0, .exit 0,
       .exit 3, .exit 4, .join]
      { main := .done,
        workers := [.returned, .returned, .returned, .returned, .returned],
        received := [(2, { timestamp := ['1'], originalURL := "a.pdf".toList }),
                     (0, { timestamp := ['2'], originalURL := "b.doc".toList })] }
      (by decide)).2.2.1 rfl).1

end Waybackdocs
